import Mathlib

/-!
Verification of the configuration codec of PrusaSlicerConfigWizard.

This file gives a shallow embedding of the codec implemented in
src/slicer/config.rs (types Property, Section, ConfigFile, ConfigMap and the
operations ConfigFile::parse, ConfigFile::to_map, ConfigFile::format,
ConfigMap::to_file) together with the helper has_printer_and_nozzle from
src/main.rs, and proves or refutes the behavioural claims made about them.

Strings are modelled as lists of characters (the code parses by borrowing
substrings of the input; the borrowed-slice structure is irrelevant to the
values computed, so plain character lists are a faithful value-level model).
Rust's HashMap is modelled as an association list with first-match lookup and
replace-or-append insertion; the list order plays the role of the map's
unspecified iteration order.
-/

/-! ## String primitives -/

abbrev Str := List Char

/-- Whitespace recognizer used when trimming lines, keys, values and section
names (the lexer trims ASCII whitespace; the characters below are the ones
that can occur around tokens of a line-based format). -/
def isWs (c : Char) : Bool := c = ' ' || c = '\t' || c = '\r'

/-- Drops leading whitespace characters. -/
def dropWs : Str → Str
  | [] => []
  | c :: cs => if isWs c then dropWs cs else c :: cs

/-- Trims whitespace from both ends of a string. -/
def trimStr (s : Str) : Str := (dropWs (dropWs s).reverse).reverse

/-- Splits a string on a separator character.  Models str::split, which always
yields at least one (possibly empty) piece; models both the line split on
the newline character and the value split on the semicolon. -/
def splitOnChar (sep : Char) : Str → List Str
  | [] => [[]]
  | c :: cs =>
    if c = sep then [] :: splitOnChar sep cs
    else (c :: (splitOnChar sep cs).headI) :: (splitOnChar sep cs).tail

/-- Joins strings with a separator character.  Models [T]::join on string
slices (used with the semicolon by ConfigFile::add_property). -/
def joinWith (sep : Char) : List Str → Str
  | [] => []
  | [t] => t
  | t :: ts => t ++ sep :: joinWith sep ts

/-- Splits a string at the first occurrence of a character, returning the text
before and after it, or none when the character does not occur. -/
def splitAtFirst (sep : Char) : Str → Option (Str × Str)
  | [] => none
  | c :: cs =>
    if c = sep then some ([], cs)
    else (splitAtFirst sep cs).map (fun ab => (c :: ab.1, ab.2))

/-- Returns the text strictly before the first occurrence of a character, or
none when the character does not occur. -/
def takeUntil (stop : Char) : Str → Option Str
  | [] => none
  | c :: cs => if c = stop then some [] else (takeUntil stop cs).map (c :: ·)

/-! ## The line lexer

ConfigFile::parse delegates line lexing to the external ini_core crate,
configured with auto_trim(true) and comment_char(b'#').  The crate is not part
of this repository, so its per-line behaviour is modelled here: the input is
split on the newline character; each line is trimmed and classified as blank,
comment (leading hash), section header (leading open bracket, name running to
the first closing bracket, trimmed), or property (split at the first equals
sign, key and value trimmed; the value of a line that contains an equals sign
is present even when it is empty after trimming, and absent exactly when the
line has no equals sign).  That a line with an equals sign and an empty value
yields a present, empty value is the documented ini_core behaviour, and the
repository's sibling modules (src/slicer_configs.rs, src/slicer_configs/config.rs)
explicitly guard that very case, evidencing it.  Lines that fit no shape are
error items; ConfigFile::parse ignores them. -/

/-- Per-line lexer result; models ini_core::Item restricted to the per-line
shapes (the SectionEnd pseudo-item is reflected in the state handling of
parseStep and parseLines below). -/
inductive Item where
  | blank : Item
  | comment (text : Str) : Item
  | sectionHeader (name : Str) : Item
  | error (line : Str) : Item
  | property (key : Str) (value : Option Str) : Item
deriving DecidableEq, Repr

/-- Classifies one line of input, modelling the ini_core lexer as configured
by ConfigFile::parse. -/
def classifyLine (line : Str) : Item :=
  match trimStr line with
  | [] => .blank
  | c :: rest =>
    if c = '#' then .comment rest
    else if c = '[' then
      match takeUntil ']' rest with
      | some name => .sectionHeader (trimStr name)
      | none => .error (c :: rest)
    else
      match splitAtFirst '=' (c :: rest) with
      | some (k, v) => .property (trimStr k) (some (trimStr v))
      | none => .property (c :: rest) none

/-! ## Data model (src/slicer/config.rs) -/

/-- Represents a PrusaSlicer configuration property within a section.
Models struct Property { key, value } with value : Option of Vec of strings. -/
structure Property where
  key : Str
  value : Option (List Str)
deriving DecidableEq, Repr

/-- Represents a PrusaSlicer configuration section within a file. -/
structure Section where
  name : Str
  properties : List Property
deriving DecidableEq, Repr

/-- Represents a PrusaSlicer configuration file (the ordered document). -/
structure ConfigFile where
  properties : List Property
  sections : List Section
deriving DecidableEq, Repr

/-! ## Parsing (ConfigFile::parse) -/

/-- Parser state during the scan: the file built so far and the currently
open section, if any.  Models the mutable file, in_section flag and section
variable of ConfigFile::parse; when in_section is false the stale section
contents are never read, so an Option is a faithful rendering. -/
structure ParseState where
  file : ConfigFile
  current : Option Section
deriving DecidableEq, Repr

/-- Commits the currently open section, if any, to the file.  Models the
Item::SectionEnd arm of ConfigFile::parse (the push happens only when
in_section is set). -/
def commitSection (file : ConfigFile) : Option Section → ConfigFile
  | none => file
  | some s => { file with sections := file.sections ++ [s] }

/-- Builds the Property stored for a lexed key/value pair: a present raw value
is split on the semicolon into tokens (Item::Property arm of
ConfigFile::parse). -/
def mkProperty (key : Str) (value : Option Str) : Property :=
  { key := key, value := value.map (splitOnChar ';') }

/-- Processes one classified line.  A section header closes the previous
section (ini_core emits SectionEnd before every Section item) and opens a new
one; a property is appended to the open section's list, or to the global list
when no section is open; other items are ignored. -/
def parseStep (st : ParseState) (line : Str) : ParseState :=
  match classifyLine line with
  | .sectionHeader name =>
    { file := commitSection st.file st.current
      current := some { name := name, properties := [] } }
  | .property k v =>
    match st.current with
    | some s => { st with current := some { s with properties := s.properties ++ [mkProperty k v] } }
    | none => { st with file := { st.file with properties := st.file.properties ++ [mkProperty k v] } }
  | _ => st

/-- Commits the section left open at the end of input (ini_core emits a final
SectionEnd at the end of the document; the Item::SectionEnd arm then pushes
the open section). -/
def finishParse (st : ParseState) : ConfigFile := commitSection st.file st.current

/-- Runs the scan over a list of lines and finishes. -/
def ConfigFile.parseLines (lines : List Str) : ConfigFile :=
  finishParse (lines.foldl parseStep { file := { properties := [], sections := [] }, current := none })

/-- Parses full input text into a ConfigFile; the scan part of
ConfigFile::parse. -/
def ConfigFile.parseText (contents : Str) : ConfigFile :=
  ConfigFile.parseLines (splitOnChar '\n' contents)

/-- Reads a PrusaSlicer configuration file from text.  Models
ConfigFile::parse, whose only return is Ok(file). -/
def ConfigFile.parse (contents : Str) : Except String ConfigFile :=
  .ok (ConfigFile.parseText contents)

/-! ## Formatting (ConfigFile::format) -/

/-- Appends one property to the output, formatted as key, space, equals sign,
space, the tokens joined with semicolons (empty for an absent value), then a
newline.  Models ConfigFile::add_property. -/
def ConfigFile.add_property (str : Str) (prop : Property) : Str :=
  let value := match prop.value with
    | some value => joinWith ';' value
    | none => []
  str ++ prop.key ++ (' ' :: '=' :: ' ' :: value) ++ ['\n']

/-- Appends one section to the output: a blank line, the bracketed name and a
newline, then each of its properties.  Models ConfigFile::add_section. -/
def ConfigFile.add_section (str : Str) (s : Section) : Str :=
  s.properties.foldl ConfigFile.add_property (str ++ ('\n' :: '[' :: (s.name ++ [']', '\n'])))

/-- Formats a configuration file by appending to the given output buffer:
every global property first, then every section in order.  Models
ConfigFile::format. -/
def ConfigFile.format (self : ConfigFile) (out : Str) : Str :=
  self.sections.foldl ConfigFile.add_section (self.properties.foldl ConfigFile.add_property out)

/-! ## The keyed map (ConfigMap) -/

/-- Association list modelling the contents of a std::collections::HashMap
with string keys.  The list order stands for the map's unspecified iteration
order. -/
abbrev AssocMap (β : Type) := List (Str × β)

/-- First-match lookup; models HashMap::get (keys of a real hash map are
unique, so first match is the only match). -/
def lookupA {β : Type} (k : Str) : AssocMap β → Option β
  | [] => none
  | (k', v') :: rest => if k' = k then some v' else lookupA k rest

/-- Insertion with replace semantics; models HashMap::insert: an existing key
keeps its slot and has its value replaced, an absent key is added. -/
def insertA {β : Type} (k : Str) (v : β) : AssocMap β → AssocMap β
  | [] => [(k, v)]
  | (k', v') :: rest => if k' = k then (k, v) :: rest else (k', v') :: insertA k v rest

/-- Value type of the per-key maps: an optional token list, as stored by
ConfigMap. -/
abbrev PropMap := AssocMap (Option (List Str))

/-- Folds a property list into a keyed map, inserting each property by key;
later duplicates overwrite earlier ones.  Models the insertion loops of
ConfigFile::to_map. -/
def propsToMap (ps : List Property) : PropMap :=
  ps.foldl (fun m p => insertA p.key p.value m) []

/-- Represents a PrusaSlicer configuration file using hash maps.  Models
struct ConfigMap. -/
structure ConfigMap where
  properties : PropMap
  sections : AssocMap PropMap
deriving DecidableEq, Repr

/-- Converts a ConfigFile to a ConfigMap: global properties are inserted by
key, then each section's properties are folded into a fresh per-section map
which is inserted under the section name.  Models ConfigFile::to_map. -/
def ConfigFile.to_map (self : ConfigFile) : ConfigMap :=
  { properties := propsToMap self.properties
    sections := self.sections.foldl (fun m s => insertA s.name (propsToMap s.properties) m) [] }

/-- Converts a group of ConfigMap properties to ConfigFile properties, one per
map entry in iteration order.  Models ConfigMap::properties_to_file. -/
def ConfigMap.properties_to_file (properties : PropMap) : List Property :=
  properties.map (fun kv => { key := kv.1, value := kv.2 })

/-- Converts a ConfigMap section to a ConfigFile section.  Models
ConfigMap::section_to_file. -/
def ConfigMap.section_to_file (name : Str) (sec : PropMap) : Section :=
  { name := name, properties := ConfigMap.properties_to_file sec }

/-- Byte-wise lexicographic order on strings as a Boolean test; models
str::cmp, which compares UTF-8 bytes (on character lists, code-point order
coincides with byte order). -/
def strLe : Str → Str → Bool
  | [], _ => true
  | _ :: _, [] => false
  | a :: s, b :: t => if a = b then strLe s t else decide (a < b)

/-- Name-based comparison used by the section sort. -/
def secLe (a b : Section) : Prop := strLe a.name b.name = true

/-- Inserts a section into a name-sorted list of sections. -/
def insertSorted (s : Section) : List Section → List Section
  | [] => [s]
  | t :: ts => if strLe t.name s.name then t :: insertSorted s ts else s :: t :: ts

/-- Sorts sections by name; models file.sections.sort_by on the names.  On
lists with pairwise distinct names every comparison sort produces the same
result, and section lists built from a hash map have distinct names. -/
def sortSections (l : List Section) : List Section := l.foldr insertSorted []

/-- Converts a ConfigMap to a ConfigFile; the sections are sorted
alphabetically by name.  Models ConfigMap::to_file. -/
def ConfigMap.to_file (self : ConfigMap) : ConfigFile :=
  { properties := ConfigMap.properties_to_file self.properties
    sections := sortSections (self.sections.map (fun kv => ConfigMap.section_to_file kv.1 kv.2)) }

/-! ## Printer/nozzle helper (src/main.rs) -/

/-- Adds a printer with the given nozzle to the given map: an absent printer
is added with that single nozzle; a printer holding no nozzle list gets one
holding that nozzle; an existing nozzle list gets the nozzle appended unless
it is already present.  Models has_printer_and_nozzle (the entry/or_insert
call followed by the overwriting insert collapses to a single insertion at
the value level). -/
def has_printer_and_nozzle (printers : PropMap) (name nozzle : Str) : PropMap :=
  match lookupA name printers with
  | none => insertA name (some [nozzle]) printers
  | some none => insertA name (some [nozzle]) printers
  | some (some nozzles) =>
    if nozzle ∈ nozzles then printers
    else insertA name (some (nozzles ++ [nozzle])) printers

/-! ## Derived notions used by the claims -/

/-- Property contributed by a single input line, if any. -/
def lineProp (l : Str) : Option Property :=
  match classifyLine l with
  | .property k v => some (mkProperty k v)
  | _ => none

/-- Section name opened by a single input line, if any. -/
def headerName (l : Str) : Option Str :=
  match classifyLine l with
  | .sectionHeader n => some n
  | _ => none

/-- Tests whether a line is a section header. -/
def isHeaderLine (l : Str) : Bool := (headerName l).isSome

/-- All properties of a file, global ones first, then the properties of each
section in order. -/
def allProps (f : ConfigFile) : List Property :=
  f.properties ++ (f.sections.map Section.properties).foldr (· ++ ·) []

/-- Reference segmentation of the scanned lines: every header line opens a
Section that holds, in order, the properties of the property lines up to the
next header line (the current section's list, as the claim puts it). -/
def segmentSections : List Str → List Section
  | [] => []
  | l :: ls =>
    match headerName l with
    | some n =>
      { name := n
        properties := (ls.takeWhile (fun x => !(isHeaderLine x))).filterMap lineProp } ::
        segmentSections ls
    | none => segmentSections ls

/-- A string is trimmed when it has no leading and no trailing whitespace. -/
def Trimmed (s : Str) : Prop := dropWs s = s ∧ dropWs s.reverse = s.reverse

/-- Tests the supported line shapes in which every property line carries an
equals sign: blank, comment and section-header lines qualify; a property line
qualifies when its key is non-empty (the dialect's keys are non-empty) and
its value is present (the line contains an equals sign); a malformed line
does not qualify. -/
def supportedEqLine (l : Str) : Bool :=
  match classifyLine l with
  | .error _ => false
  | .property k v => !k.isEmpty && v.isSome
  | _ => true

/-- Shape of the keys produced by the parser for properties that carry a
value: non-empty, trimmed, free of equals signs and newlines, and not starting
with a comment or section-header character. -/
def GoodKey (k : Str) : Prop :=
  k ≠ [] ∧ Trimmed k ∧ '=' ∉ k ∧ '\n' ∉ k ∧ k.head? ≠ some '#' ∧ k.head? ≠ some '['

/-- Shape of the parser-produced properties of a value-carrying line: a good
key together with the token list obtained by splitting some trimmed,
newline-free raw value on semicolons. -/
def GoodProp (p : Property) : Prop :=
  GoodKey p.key ∧ ∃ raw, Trimmed raw ∧ '\n' ∉ raw ∧ p.value = some (splitOnChar ';' raw)

/-- Shape of parser-produced section names: trimmed and free of closing
brackets and newlines. -/
def GoodName (n : Str) : Prop := Trimmed n ∧ ']' ∉ n ∧ '\n' ∉ n

/-- A structurally good section: good name, good properties. -/
def GoodSec (s : Section) : Prop := GoodName s.name ∧ ∀ p ∈ s.properties, GoodProp p

/-- A structurally good file, as produced by parsing text whose property
lines all carry an equals sign. -/
def GoodFile (d : ConfigFile) : Prop :=
  (∀ p ∈ d.properties, GoodProp p) ∧ ∀ s ∈ d.sections, GoodSec s

/-- Body of the line the formatter emits for a property (everything before
the trailing newline). -/
def propBody (p : Property) : Str :=
  p.key ++ ' ' :: '=' :: ' ' ::
    (match p.value with
      | some ts => joinWith ';' ts
      | none => [])

/-- Body of the header line the formatter emits for a section. -/
def headerBody (s : Section) : Str := '[' :: s.name ++ [']']

/-- Line bodies the formatter emits for a section: the blank separator line,
the header, then one line per property. -/
def sectionLines (s : Section) : List Str :=
  [] :: headerBody s :: s.properties.map propBody

/-- Line bodies the formatter emits for a whole file. -/
def fileLines (d : ConfigFile) : List Str :=
  d.properties.map propBody ++ (d.sections.map sectionLines).foldr (· ++ ·) []

/-- Text assembled from line bodies, each followed by a newline. -/
def linesText : List Str → Str
  | [] => []
  | l :: ls => l ++ '\n' :: linesText ls

/-- All properties accumulated in a parse state, in chronological order. -/
def stateProps (st : ParseState) : List Property :=
  allProps st.file ++
    (match st.current with
      | some s => s.properties
      | none => [])

/-- All section names accumulated in a parse state, in chronological order. -/
def stateNames (st : ParseState) : List Str :=
  st.file.sections.map Section.name ++
    (match st.current with
      | some s => [s.name]
      | none => [])

/-- Scan invariant: before the first section header is seen, no section has
been committed. -/
def NoSecWF (st : ParseState) : Prop := st.current = none → st.file.sections = []

/-- Scan invariant: everything accumulated so far is structurally good. -/
def GoodState (st : ParseState) : Prop :=
  GoodFile st.file ∧ ∀ s, st.current = some s → GoodSec s

/-! ## Lemmas about the string primitives -/

theorem dropWs_cons (c : Char) (s : Str) :
    dropWs (c :: s) = if isWs c then dropWs s else c :: s := rfl

theorem dropWs_length_le (s : Str) : (dropWs s).length ≤ s.length := by
  induction s with
  | nil => simp [dropWs]
  | cons c cs ih =>
    rw [dropWs_cons]
    split
    · exact ih.trans (Nat.le_succ _)
    · exact Nat.le_refl _

theorem not_ws_of_dropWs_cons_eq {c : Char} {s : Str} (h : dropWs (c :: s) = c :: s) :
    isWs c = false := by
  by_contra hc
  rw [dropWs_cons, if_pos (by simpa using hc)] at h
  have := dropWs_length_le s
  rw [h] at this
  simp at this

theorem dropWs_of_head_not_ws {c : Char} {s : Str} (h : isWs c = false) :
    dropWs (c :: s) = c :: s := by
  rw [dropWs_cons, if_neg (by simp [h])]

theorem dropWs_idem (s : Str) : dropWs (dropWs s) = dropWs s := by
  induction s with
  | nil => rfl
  | cons c cs ih =>
    rw [dropWs_cons]
    split
    · exact ih
    · exact dropWs_of_head_not_ws (by simpa using ‹¬ isWs c = true›)

theorem head_not_ws_of_dropWs {s : Str} {c : Char} {t : Str} (h : dropWs s = c :: t) :
    isWs c = false := by
  induction s with
  | nil => simp [dropWs] at h
  | cons d ds ih =>
    rw [dropWs_cons] at h
    split at h
    · exact ih h
    · cases h
      simpa using ‹¬ isWs c = true›

/-- The result of dropWs is a suffix of the input, with a fully-whitespace
prefix removed. -/
theorem dropWs_decomp (s : Str) :
    ∃ w, s = w ++ dropWs s ∧ ∀ x ∈ w, isWs x = true := by
  induction s with
  | nil => exact ⟨[], rfl, by simp⟩
  | cons c cs ih =>
    rw [dropWs_cons]
    by_cases hc : isWs c
    · obtain ⟨w, hw, hall⟩ := ih
      refine ⟨c :: w, ?_, ?_⟩
      · simp [hc, ← hw]
      · intro x hx
        rcases List.mem_cons.mp hx with h | h
        · simpa [h] using hc
        · exact hall x h
    · exact ⟨[], by simp [hc], by simp⟩

theorem getLast?_dropWs {s : Str} (h : dropWs s ≠ []) :
    (dropWs s).getLast? = s.getLast? := by
  obtain ⟨w, hw, -⟩ := dropWs_decomp s
  conv_rhs => rw [hw]
  rw [List.getLast?_append]
  rcases hg : (dropWs s).getLast? with _ | ⟨x⟩
  · exact absurd (List.getLast?_eq_none_iff.mp hg) h
  · rfl

theorem dropWs_ne_nil_of_getLast? {s : Str} {c : Char} (hl : s.getLast? = some c)
    (hc : isWs c = false) : dropWs s ≠ [] := by
  intro hnil
  obtain ⟨w, hw, hall⟩ := dropWs_decomp s
  rw [hnil, List.append_nil] at hw
  have hcw : c ∈ w := by
    rw [← hw]
    exact List.mem_of_getLast?_eq_some hl
  rw [hall c hcw] at hc
  exact absurd hc (by simp)

theorem trimStr_eq_self {s : Str} (h : Trimmed s) : trimStr s = s := by
  unfold trimStr
  rw [h.1, h.2, List.reverse_reverse]

theorem trimStr_nil : trimStr [] = [] := rfl

theorem head?_dropWs_not_ws {s : Str} {c : Char} (h : (dropWs s).head? = some c) :
    isWs c = false := by
  rcases hd : dropWs s with _ | ⟨d, t⟩
  · rw [hd] at h
    simp at h
  · rw [hd] at h
    injection h with h
    subst h
    exact head_not_ws_of_dropWs hd

theorem head?_trimStr_not_ws {s : Str} {c : Char} (h : (trimStr s).head? = some c) :
    isWs c = false := by
  unfold trimStr at h
  rw [List.head?_reverse] at h
  have hne : dropWs (dropWs s).reverse ≠ [] := by
    intro hnil
    rw [hnil] at h
    simp at h
  rw [getLast?_dropWs hne, List.getLast?_reverse] at h
  exact head?_dropWs_not_ws h

theorem getLast?_trimStr_not_ws {s : Str} {c : Char} (h : (trimStr s).getLast? = some c) :
    isWs c = false := by
  unfold trimStr at h
  rw [List.getLast?_reverse] at h
  exact head?_dropWs_not_ws h

theorem trimmed_trimStr (s : Str) : Trimmed (trimStr s) := by
  constructor
  · rcases ht : trimStr s with _ | ⟨d, t⟩
    · rfl
    · exact dropWs_of_head_not_ws (head?_trimStr_not_ws (s := s) (by rw [ht]; rfl))
  · show dropWs (trimStr s).reverse = (trimStr s).reverse
    unfold trimStr
    rw [List.reverse_reverse]
    exact dropWs_idem _

theorem trimStr_idem (s : Str) : trimStr (trimStr s) = trimStr s :=
  trimStr_eq_self (trimmed_trimStr s)

theorem mem_dropWs {s : Str} {c : Char} (h : c ∈ dropWs s) : c ∈ s := by
  obtain ⟨w, hw, -⟩ := dropWs_decomp s
  rw [hw]
  exact List.mem_append_right w h

theorem mem_trimStr {s : Str} {c : Char} (h : c ∈ trimStr s) : c ∈ s := by
  unfold trimStr at h
  rw [List.mem_reverse] at h
  have := mem_dropWs h
  rw [List.mem_reverse] at this
  exact mem_dropWs this

/-- Trimming a string that starts and ends with explicit non-whitespace
characters leaves it unchanged. -/
theorem trimStr_cons_concat {c d : Char} (s : Str) (hc : isWs c = false)
    (hd : isWs d = false) : trimStr (c :: s ++ [d]) = c :: s ++ [d] := by
  apply trimStr_eq_self
  constructor
  · exact dropWs_of_head_not_ws hc
  · rw [show (c :: s ++ [d]).reverse = d :: (c :: s).reverse by simp]
    exact dropWs_of_head_not_ws hd

theorem splitOnChar_nil (sep : Char) : splitOnChar sep [] = [[]] := rfl

theorem splitOnChar_cons_sep (sep : Char) (s : Str) :
    splitOnChar sep (sep :: s) = [] :: splitOnChar sep s := by
  simp [splitOnChar]

theorem splitOnChar_cons_ne {sep c : Char} (s : Str) (h : c ≠ sep) :
    splitOnChar sep (c :: s) =
      (c :: (splitOnChar sep s).headI) :: (splitOnChar sep s).tail := by
  simp [splitOnChar, h]

theorem splitOnChar_ne_nil (sep : Char) (s : Str) : splitOnChar sep s ≠ [] := by
  induction s with
  | nil => simp [splitOnChar]
  | cons c cs ih =>
    by_cases hc : c = sep
    · subst hc
      rw [splitOnChar_cons_sep]
      simp
    · rw [splitOnChar_cons_ne _ hc]
      simp

theorem splitOnChar_append_sep (sep : Char) (a b : Str) :
    splitOnChar sep (a ++ sep :: b) = splitOnChar sep a ++ splitOnChar sep b := by
  induction a with
  | nil =>
    rw [List.nil_append, splitOnChar_cons_sep, splitOnChar_nil]
    rfl
  | cons c a ih =>
    by_cases hc : c = sep
    · subst hc
      rw [List.cons_append, splitOnChar_cons_sep, splitOnChar_cons_sep, ih]
      rfl
    · rw [List.cons_append, splitOnChar_cons_ne _ hc, splitOnChar_cons_ne _ hc, ih]
      rcases ha : splitOnChar sep a with _ | ⟨t, ts⟩
      · exact absurd ha (splitOnChar_ne_nil sep a)
      · simp

theorem splitOnChar_of_not_mem {sep : Char} {s : Str} (h : sep ∉ s) :
    splitOnChar sep s = [s] := by
  induction s with
  | nil => rfl
  | cons c cs ih =>
    have hc : c ≠ sep := fun hc => h (by simp [hc])
    rw [splitOnChar_cons_ne _ hc, ih (fun hm => h (by simp [hm]))]
    simp

theorem not_mem_of_mem_splitOnChar {sep : Char} {s t : Str}
    (h : t ∈ splitOnChar sep s) : sep ∉ t := by
  induction s generalizing t with
  | nil =>
    rw [splitOnChar_nil] at h
    simp at h
    simp [h]
  | cons c cs ih =>
    by_cases hc : c = sep
    · subst hc
      rw [splitOnChar_cons_sep] at h
      rcases List.mem_cons.mp h with h | h
      · simp [h]
      · exact ih h
    · rw [splitOnChar_cons_ne _ hc] at h
      rcases hs : splitOnChar sep cs with _ | ⟨u, us⟩
      · exact absurd hs (splitOnChar_ne_nil sep cs)
      · rw [hs] at h
        simp at h
        rcases h with h | h
        · subst h
          intro hm
          rcases List.mem_cons.mp hm with h | h
          · exact hc h.symm
          · exact ih (by rw [hs]; simp) h
        · exact ih (by rw [hs]; simp [h])

theorem joinWith_cons_cons (sep : Char) (t u : Str) (us : List Str) :
    joinWith sep (t :: u :: us) = t ++ sep :: joinWith sep (u :: us) := rfl

theorem joinWith_splitOnChar (sep : Char) (s : Str) :
    joinWith sep (splitOnChar sep s) = s := by
  induction s with
  | nil => rfl
  | cons c cs ih =>
    by_cases hc : c = sep
    · subst hc
      rw [splitOnChar_cons_sep]
      rcases hs : splitOnChar c cs with _ | ⟨t, ts⟩
      · exact absurd hs (splitOnChar_ne_nil c cs)
      · rw [hs] at ih
        rw [joinWith_cons_cons, List.nil_append, ih]
    · rw [splitOnChar_cons_ne _ hc]
      rcases hs : splitOnChar sep cs with _ | ⟨t, ts⟩
      · exact absurd hs (splitOnChar_ne_nil sep cs)
      · rw [hs] at ih
        simp only [List.headI_cons, List.tail_cons]
        rcases ts with _ | ⟨u, us⟩
        · show (c :: t : Str) = c :: cs
          rw [show joinWith sep [t] = t from rfl] at ih
          rw [ih]
        · rw [joinWith_cons_cons]
          rw [joinWith_cons_cons] at ih
          rw [List.cons_append, ih]

theorem splitOnChar_joinWith {sep : Char} {ts : List Str} (hne : ts ≠ [])
    (h : ∀ t ∈ ts, sep ∉ t) : splitOnChar sep (joinWith sep ts) = ts := by
  induction ts with
  | nil => exact absurd rfl hne
  | cons t us ih =>
    rcases us with _ | ⟨u, vs⟩
    · rw [show joinWith sep [t] = t from rfl]
      exact splitOnChar_of_not_mem (h t (by simp))
    · rw [joinWith_cons_cons, splitOnChar_append_sep,
        splitOnChar_of_not_mem (h t (by simp)),
        ih (by simp) (fun x hx => h x (by simp [hx]))]
      rfl

theorem joinWith_eq_nil {sep : Char} {ts : List Str} (h : joinWith sep ts = []) :
    ts = [] ∨ ts = [[]] := by
  rcases ts with _ | ⟨t, us⟩
  · exact Or.inl rfl
  · rcases us with _ | ⟨u, vs⟩
    · rw [show joinWith sep [t] = t from rfl] at h
      exact Or.inr (by rw [h])
    · rw [joinWith_cons_cons] at h
      rcases t with _ | ⟨c, cs⟩
      · simp at h
      · simp at h

theorem splitAtFirst_not_mem {sep : Char} {s : Str} (h : sep ∉ s) :
    splitAtFirst sep s = none := by
  induction s with
  | nil => rfl
  | cons c cs ih =>
    have hc : c ≠ sep := fun hc => h (by simp [hc])
    simp [splitAtFirst, hc, ih (fun hm => h (by simp [hm]))]

theorem splitAtFirst_append {sep : Char} {a : Str} (b : Str) (h : sep ∉ a) :
    splitAtFirst sep (a ++ sep :: b) = some (a, b) := by
  induction a with
  | nil => simp [splitAtFirst]
  | cons c a ih =>
    have hc : c ≠ sep := fun hc => h (by simp [hc])
    rw [List.cons_append]
    simp [splitAtFirst, hc, ih (fun hm => h (by simp [hm]))]

theorem splitAtFirst_eq_some {sep : Char} {s a b : Str}
    (h : splitAtFirst sep s = some (a, b)) : sep ∉ a ∧ s = a ++ sep :: b := by
  induction s generalizing a b with
  | nil => simp [splitAtFirst] at h
  | cons c cs ih =>
    by_cases hc : c = sep
    · subst hc
      rw [show splitAtFirst c (c :: cs) = some ([], cs) by simp [splitAtFirst]] at h
      cases h
      exact ⟨by simp, rfl⟩
    · rw [show splitAtFirst sep (c :: cs) =
          (splitAtFirst sep cs).map (fun ab => (c :: ab.1, ab.2)) by
            simp [splitAtFirst, hc]] at h
      rcases hs : splitAtFirst sep cs with _ | ⟨⟨x, y⟩⟩
      · rw [hs] at h
        simp at h
      · rw [hs] at h
        rw [show (some (x, y)).map (fun ab : Str × Str => (c :: ab.1, ab.2)) =
            some (c :: x, y) from rfl] at h
        cases h
        obtain ⟨hna, hcs⟩ := ih hs
        refine ⟨?_, by rw [hcs, List.cons_append]⟩
        intro hm
        rcases List.mem_cons.mp hm with hm | hm
        · exact hc hm.symm
        · exact hna hm

theorem takeUntil_append {stop : Char} {name : Str} (rest : Str) (h : stop ∉ name) :
    takeUntil stop (name ++ stop :: rest) = some name := by
  induction name with
  | nil =>
    show takeUntil stop (stop :: rest) = _
    unfold takeUntil
    rw [if_pos rfl]
  | cons c cs ih =>
    have hc : c ≠ stop := fun hc => h (by simp [hc])
    show takeUntil stop (c :: (cs ++ stop :: rest)) = _
    unfold takeUntil
    rw [if_neg hc, ih (fun hm => h (by simp [hm]))]
    rfl

theorem takeUntil_eq_some {stop : Char} {s r : Str} (h : takeUntil stop s = some r) :
    stop ∉ r ∧ ∃ rest, s = r ++ stop :: rest := by
  induction s generalizing r with
  | nil => simp [takeUntil] at h
  | cons c cs ih =>
    by_cases hc : c = stop
    · subst hc
      rw [show takeUntil c (c :: cs) = some [] by simp [takeUntil]] at h
      cases h
      exact ⟨by simp, cs, rfl⟩
    · rw [show takeUntil stop (c :: cs) = (takeUntil stop cs).map (c :: ·) by
        simp [takeUntil, hc]] at h
      rcases hs : takeUntil stop cs with _ | ⟨x⟩
      · rw [hs] at h
        simp at h
      · rw [hs] at h
        rw [show (some x).map (fun y : Str => c :: y) = some (c :: x) from rfl] at h
        cases h
        obtain ⟨hnx, rest, hcs⟩ := ih hs
        refine ⟨?_, rest, by rw [hcs, List.cons_append]⟩
        intro hm
        rcases List.mem_cons.mp hm with hm | hm
        · exact hc hm.symm
        · exact hnx hm

/-! ## Lemmas about the lexicographic order on strings -/

theorem strLe_refl (s : Str) : strLe s s = true := by
  induction s with
  | nil => rfl
  | cons c cs ih => simp [strLe, ih]

theorem strLe_total (s t : Str) : strLe s t = true ∨ strLe t s = true := by
  induction s generalizing t with
  | nil => exact Or.inl rfl
  | cons c cs ih =>
    rcases t with _ | ⟨d, ds⟩
    · exact Or.inr rfl
    · by_cases hcd : c = d
      · subst hcd
        rcases ih ds with h | h
        · exact Or.inl (by simp [strLe, h])
        · exact Or.inr (by simp [strLe, h])
      · rcases lt_or_gt_of_ne hcd with h | h
        · exact Or.inl (by simp [strLe, hcd, h])
        · exact Or.inr (by simp [strLe, Ne.symm hcd, h])

theorem strLe_antisymm {s t : Str} (h1 : strLe s t = true) (h2 : strLe t s = true) :
    s = t := by
  induction s generalizing t with
  | nil =>
    rcases t with _ | ⟨d, ds⟩
    · rfl
    · simp [strLe] at h2
  | cons c cs ih =>
    rcases t with _ | ⟨d, ds⟩
    · simp [strLe] at h1
    · by_cases hcd : c = d
      · subst hcd
        simp [strLe] at h1 h2
        rw [ih h1 h2]
      · simp [strLe, hcd, Ne.symm hcd] at h1 h2
        exact absurd (h1.trans h2) (lt_irrefl c)

theorem strLe_trans {s t u : Str} (h1 : strLe s t = true) (h2 : strLe t u = true) :
    strLe s u = true := by
  induction s generalizing t u with
  | nil => rfl
  | cons c cs ih =>
    rcases t with _ | ⟨d, ds⟩
    · simp [strLe] at h1
    · rcases u with _ | ⟨e, es⟩
      · simp [strLe] at h2
      · by_cases hcd : c = d
        · subst hcd
          by_cases hde : c = e
          · subst hde
            simp [strLe] at h1 h2 ⊢
            exact ih h1 h2
          · simp [strLe, hde] at h2 ⊢
            exact h2
        · simp [strLe, hcd] at h1
          by_cases hde : d = e
          · subst hde
            simp [strLe, hcd]
            exact h1
          · simp [strLe, hde] at h2
            have hce : c < e := h1.trans h2
            simp [strLe, ne_of_lt hce, hce]

/-! ## Lemmas about section sorting -/

theorem insertSorted_cons (s t : Section) (ts : List Section) :
    insertSorted s (t :: ts) =
      if strLe t.name s.name then t :: insertSorted s ts else s :: t :: ts := rfl

theorem mem_insertSorted {s x : Section} {l : List Section}
    (h : x ∈ insertSorted s l) : x = s ∨ x ∈ l := by
  induction l with
  | nil =>
    simp [insertSorted] at h
    exact Or.inl h
  | cons t ts ih =>
    unfold insertSorted at h
    split at h
    · rcases List.mem_cons.mp h with h | h
      · exact Or.inr (by simp [h])
      · rcases ih h with h | h
        · exact Or.inl h
        · exact Or.inr (by simp [h])
    · rcases List.mem_cons.mp h with h | h
      · exact Or.inl h
      · exact Or.inr h

theorem insertSorted_perm (s : Section) (l : List Section) :
    (insertSorted s l).Perm (s :: l) := by
  induction l with
  | nil => rfl
  | cons t ts ih =>
    unfold insertSorted
    split
    · exact (ih.cons t).trans (List.Perm.swap s t ts)
    · rfl

theorem sortSections_perm (l : List Section) : (sortSections l).Perm l := by
  induction l with
  | nil => rfl
  | cons s ss ih =>
    show (insertSorted s (sortSections ss)).Perm (s :: ss)
    exact (insertSorted_perm s (sortSections ss)).trans (ih.cons s)

theorem pairwise_insertSorted {s : Section} {l : List Section}
    (h : l.Pairwise secLe) : (insertSorted s l).Pairwise secLe := by
  induction l with
  | nil => simp [insertSorted, List.Pairwise]
  | cons t ts ih =>
    rcases List.pairwise_cons.mp h with ⟨ht, hts⟩
    by_cases hc : strLe t.name s.name = true
    · rw [insertSorted_cons, if_pos hc]
      refine List.pairwise_cons.mpr ⟨?_, ih hts⟩
      intro x hx
      rcases mem_insertSorted hx with hx | hx
      · subst hx
        exact hc
      · exact ht x hx
    · rw [insertSorted_cons, if_neg hc]
      refine List.pairwise_cons.mpr ⟨?_, h⟩
      intro x hx
      have hst : strLe s.name t.name = true := by
        rcases strLe_total s.name t.name with h1 | h1
        · exact h1
        · exact absurd h1 hc
      rcases List.mem_cons.mp hx with hx | hx
      · subst hx
        exact hst
      · exact strLe_trans hst (ht x hx)

theorem sortSections_pairwise (l : List Section) : (sortSections l).Pairwise secLe := by
  induction l with
  | nil => simp [sortSections, List.Pairwise]
  | cons s ss ih => exact pairwise_insertSorted ih

/-- Two lists that are permutations of each other and both sorted under a
relation that is antisymmetric on their elements are equal. -/
theorem eq_of_perm_of_pairwise {α : Type} {R : α → α → Prop}
    (anti : ∀ a b, R a b → R b a → a = b) :
    ∀ {l₁ l₂ : List α}, l₁.Perm l₂ → l₁.Pairwise R → l₂.Pairwise R → l₁ = l₂ := by
  intro l₁
  induction l₁ with
  | nil =>
    intro l₂ hp _ _
    exact (hp.nil_eq).symm ▸ rfl
  | cons a t₁ ih =>
    intro l₂ hp h1 h2
    rcases l₂ with _ | ⟨b, t₂⟩
    · exact absurd hp.symm (by simp [List.Perm])
    · rcases List.pairwise_cons.mp h1 with ⟨ha, ht1⟩
      rcases List.pairwise_cons.mp h2 with ⟨hb, ht2⟩
      have hab : a = b := by
        have hamem : a ∈ b :: t₂ := hp.mem_iff.mp (by simp)
        have hbmem : b ∈ a :: t₁ := hp.symm.mem_iff.mp (by simp)
        rcases List.mem_cons.mp hamem with h | h
        · exact h
        · rcases List.mem_cons.mp hbmem with h2m | h2m
          · exact h2m.symm
          · exact anti a b (ha b h2m) (hb a h)
      subst hab
      rw [ih hp.cons_inv ht1 ht2]

/-! ## Lemmas about the association-list maps -/

theorem lookupA_cons {β : Type} (k k' : Str) (v : β) (m : AssocMap β) :
    lookupA k ((k', v) :: m) = if k' = k then some v else lookupA k m := rfl

theorem insertA_cons {β : Type} (k k' : Str) (v v' : β) (m : AssocMap β) :
    insertA k v ((k', v') :: m) =
      if k' = k then (k, v) :: m else (k', v') :: insertA k v m := rfl

theorem lookupA_insertA_self {β : Type} (k : Str) (v : β) (m : AssocMap β) :
    lookupA k (insertA k v m) = some v := by
  induction m with
  | nil => simp [insertA, lookupA]
  | cons kv rest ih =>
    rcases kv with ⟨k', v'⟩
    rw [insertA_cons]
    by_cases hc : k' = k
    · rw [if_pos hc, lookupA_cons, if_pos rfl]
    · rw [if_neg hc, lookupA_cons, if_neg hc]
      exact ih

theorem lookupA_insertA_ne {β : Type} {k k' : Str} (hne : k' ≠ k) (v : β)
    (m : AssocMap β) : lookupA k (insertA k' v m) = lookupA k m := by
  induction m with
  | nil => simp [insertA, lookupA, hne]
  | cons kv rest ih =>
    rcases kv with ⟨k₀, v₀⟩
    rw [insertA_cons]
    by_cases hc : k₀ = k'
    · subst hc
      rw [if_pos rfl, lookupA_cons, if_neg hne, lookupA_cons, if_neg hne]
    · rw [if_neg hc, lookupA_cons, lookupA_cons]
      by_cases hk : k₀ = k
      · rw [if_pos hk, if_pos hk]
      · rw [if_neg hk, if_neg hk]
        exact ih

theorem insertA_of_not_mem {β : Type} {k : Str} {m : AssocMap β}
    (h : k ∉ m.map Prod.fst) (v : β) : insertA k v m = m ++ [(k, v)] := by
  induction m with
  | nil => rfl
  | cons kv rest ih =>
    rcases kv with ⟨k₀, v₀⟩
    have hk : k₀ ≠ k := fun he => h (by rw [List.map_cons, he]; exact List.mem_cons_self k _)
    rw [insertA_cons, if_neg hk, ih (fun hm => h (by rw [List.map_cons]; exact List.mem_cons_of_mem k₀ hm))]
    rfl

theorem mem_insertA {β : Type} {k : Str} {v : β} {m : AssocMap β} {x : Str × β}
    (h : x ∈ insertA k v m) : x ∈ m ∨ x = (k, v) := by
  induction m with
  | nil =>
    simp [insertA] at h
    exact Or.inr h
  | cons kv rest ih =>
    rcases kv with ⟨k₀, v₀⟩
    rw [insertA_cons] at h
    by_cases hc : k₀ = k
    · rw [if_pos hc] at h
      rcases List.mem_cons.mp h with h | h
      · exact Or.inr h
      · exact Or.inl (by simp [h])
    · rw [if_neg hc] at h
      rcases List.mem_cons.mp h with h | h
      · exact Or.inl (by simp [h])
      · rcases ih h with h | h
        · exact Or.inl (by simp [h])
        · exact Or.inr h

theorem keys_insertA_nodup {β : Type} {m : AssocMap β} (k : Str) (v : β)
    (h : (m.map Prod.fst).Nodup) : ((insertA k v m).map Prod.fst).Nodup := by
  induction m with
  | nil => simp [insertA]
  | cons kv rest ih =>
    rcases kv with ⟨k₀, v₀⟩
    rw [List.map_cons, List.nodup_cons] at h
    rw [insertA_cons]
    by_cases hc : k₀ = k
    · subst hc
      rw [if_pos rfl, List.map_cons, List.nodup_cons]
      exact h
    · rw [if_neg hc, List.map_cons, List.nodup_cons]
      refine ⟨?_, ih h.2⟩
      intro hmem
      rw [List.mem_map] at hmem
      obtain ⟨x, hx, hfst⟩ := hmem
      rcases mem_insertA hx with hx | hx
      · exact h.1 (by rw [← hfst]; exact List.mem_map_of_mem Prod.fst hx)
      · rw [hx] at hfst
        exact hc hfst.symm

theorem lookupA_perm {β : Type} {m m' : AssocMap β} (hp : m.Perm m')
    (hnd : (m.map Prod.fst).Nodup) (k : Str) : lookupA k m = lookupA k m' := by
  induction hp with
  | nil => rfl
  | cons x _ ih =>
    rcases x with ⟨k₀, v₀⟩
    rw [lookupA_cons, lookupA_cons]
    rw [List.map_cons, List.nodup_cons] at hnd
    by_cases hc : k₀ = k
    · rw [if_pos hc, if_pos hc]
    · rw [if_neg hc, if_neg hc]
      exact ih hnd.2
  | swap x y l =>
    rcases x with ⟨k₁, v₁⟩
    rcases y with ⟨k₂, v₂⟩
    simp only [List.map_cons, List.nodup_cons, List.mem_cons, List.mem_map] at hnd
    rw [lookupA_cons, lookupA_cons, lookupA_cons, lookupA_cons]
    by_cases h1 : k₂ = k
    · by_cases h2 : k₁ = k
      · exact absurd (h2.trans h1.symm) (fun he => hnd.1 (Or.inl he.symm))
      · rw [if_pos h1, if_neg h2, if_pos h1]
    · by_cases h2 : k₁ = k
      · rw [if_neg h1, if_pos h2, if_pos h2]
      · rw [if_neg h1, if_neg h2, if_neg h2, if_neg h1]
  | trans h12 _ ih1 ih2 =>
    rw [ih1 hnd]
    exact ih2 ((h12.map Prod.fst).nodup_iff.mp hnd)

/-! ## Folding property lists into maps -/

theorem lookupA_foldl_insert {α β : Type} (key : α → Str) (val : α → β) (k : Str)
    (xs : List α) (m₀ : AssocMap β) :
    lookupA k (xs.foldl (fun m x => insertA (key x) (val x) m) m₀) =
      (((xs.filter (fun x => decide (key x = k))).getLast?).map val).or (lookupA k m₀) := by
  induction xs using List.reverseRecOn generalizing m₀ with
  | nil => simp
  | append_singleton xs x ih =>
    rw [List.foldl_append, List.foldl_cons, List.foldl_nil, List.filter_append]
    by_cases hc : key x = k
    · rw [show List.filter (fun x => decide (key x = k)) [x] = [x] by simp [hc]]
      rw [List.getLast?_concat]
      subst hc
      rw [lookupA_insertA_self]
      rfl
    · rw [show List.filter (fun x => decide (key x = k)) [x] = [] by simp [hc]]
      rw [List.append_nil, lookupA_insertA_ne (fun he => hc he) _ _]
      exact ih m₀

theorem foldl_insert_eq_append {α β : Type} (key : α → Str) (val : α → β)
    (xs : List α) (m₀ : AssocMap β) (hnd : (xs.map key).Nodup)
    (hdis : ∀ x ∈ xs, key x ∉ m₀.map Prod.fst) :
    xs.foldl (fun m x => insertA (key x) (val x) m) m₀ =
      m₀ ++ xs.map (fun x => (key x, val x)) := by
  induction xs generalizing m₀ with
  | nil => simp
  | cons x xs ih =>
    rw [List.foldl_cons, insertA_of_not_mem (hdis x (by simp)) (val x)]
    rw [List.map_cons, List.nodup_cons] at hnd
    rw [ih (m₀ ++ [(key x, val x)]) hnd.2 ?_]
    · simp
    · intro y hy
      rw [List.map_append]
      intro hmem
      rcases List.mem_append.mp hmem with hm | hm
      · exact hdis y (by simp [hy]) hm
      · simp at hm
        exact hnd.1 (hm ▸ List.mem_map_of_mem key hy)

theorem foldl_insert_keys_nodup {α β : Type} (key : α → Str) (val : α → β)
    (xs : List α) (m₀ : AssocMap β) (h : (m₀.map Prod.fst).Nodup) :
    ((xs.foldl (fun m x => insertA (key x) (val x) m) m₀).map Prod.fst).Nodup := by
  induction xs generalizing m₀ with
  | nil => exact h
  | cons x xs ih => exact ih _ (keys_insertA_nodup _ _ h)

theorem foldl_insert_values {α β : Type} (key : α → Str) (val : α → β)
    (P : β → Prop) (xs : List α) (m₀ : AssocMap β) (h0 : ∀ kv ∈ m₀, P kv.2)
    (hx : ∀ x ∈ xs, P (val x)) :
    ∀ kv ∈ xs.foldl (fun m x => insertA (key x) (val x) m) m₀, P kv.2 := by
  induction xs generalizing m₀ with
  | nil => exact h0
  | cons x xs ih =>
    rw [List.foldl_cons]
    refine ih _ ?_ (fun y hy => hx y (by simp [hy]))
    intro kv hkv
    rcases mem_insertA hkv with hkv | hkv
    · exact h0 kv hkv
    · rw [hkv]
      exact hx x (by simp)

theorem propsToMap_eq {ps : List Property} (hnd : (ps.map Property.key).Nodup) :
    propsToMap ps = ps.map (fun p => (p.key, p.value)) :=
  foldl_insert_eq_append Property.key Property.value ps [] hnd (by simp)

theorem propsToMap_keys_nodup (ps : List Property) :
    ((propsToMap ps).map Prod.fst).Nodup :=
  foldl_insert_keys_nodup Property.key Property.value ps [] (by simp)

theorem properties_to_file_roundtrip {m : PropMap} (hnd : (m.map Prod.fst).Nodup) :
    propsToMap (ConfigMap.properties_to_file m) = m := by
  unfold ConfigMap.properties_to_file
  rw [show propsToMap (m.map fun kv => { key := kv.1, value := kv.2 }) =
      (m.map fun kv => ({ key := kv.1, value := kv.2 } : Property)).foldl
        (fun m p => insertA p.key p.value m) [] from rfl]
  rw [foldl_insert_eq_append Property.key Property.value _ [] ?_ (by simp)]
  · rw [List.nil_append, List.map_map]
    have : ((fun p : Property => (p.key, p.value)) ∘ fun kv : Str × Option (List Str) =>
        ({ key := kv.1, value := kv.2 } : Property)) = fun kv => (kv.1, kv.2) := rfl
    rw [this]
    simp
  · rw [List.map_map]
    exact hnd

/-! ## Facts about to_map and to_file used by the round-trip claims -/

theorem to_map_properties (doc : ConfigFile) :
    (doc.to_map).properties = propsToMap doc.properties := rfl

theorem to_map_sections (doc : ConfigFile) :
    (doc.to_map).sections =
      doc.sections.foldl (fun m s => insertA s.name (propsToMap s.properties) m) [] := rfl

theorem to_map_sections_keys_nodup (doc : ConfigFile) :
    (((doc.to_map).sections).map Prod.fst).Nodup :=
  foldl_insert_keys_nodup Section.name (fun s => propsToMap s.properties)
    doc.sections [] (by simp)

theorem to_map_sections_values (doc : ConfigFile) :
    ∀ kv ∈ (doc.to_map).sections, ((kv.2).map Prod.fst).Nodup :=
  foldl_insert_values Section.name (fun s => propsToMap s.properties)
    (fun v => (v.map Prod.fst).Nodup) doc.sections [] (by simp)
    (fun s _ => propsToMap_keys_nodup s.properties)

theorem to_file_sections (m : ConfigMap) :
    (m.to_file).sections =
      sortSections (m.sections.map (fun kv => ConfigMap.section_to_file kv.1 kv.2)) := rfl

theorem section_to_file_name (kv : Str × PropMap) :
    (ConfigMap.section_to_file kv.1 kv.2).name = kv.1 := rfl

/-! ## Helper facts about has_printer_and_nozzle -/

theorem hpn_of_none {printers : PropMap} {name : Str} (nozzle : Str)
    (h : lookupA name printers = none) :
    has_printer_and_nozzle printers name nozzle = insertA name (some [nozzle]) printers := by
  unfold has_printer_and_nozzle
  rw [h]

theorem hpn_of_some_none {printers : PropMap} {name : Str} (nozzle : Str)
    (h : lookupA name printers = some none) :
    has_printer_and_nozzle printers name nozzle = insertA name (some [nozzle]) printers := by
  unfold has_printer_and_nozzle
  rw [h]

theorem hpn_of_not_mem {printers : PropMap} {name nozzle : Str} {ns : List Str}
    (h : lookupA name printers = some (some ns)) (hm : nozzle ∉ ns) :
    has_printer_and_nozzle printers name nozzle =
      insertA name (some (ns ++ [nozzle])) printers := by
  unfold has_printer_and_nozzle
  rw [h]
  simp [hm]

theorem hpn_of_mem {printers : PropMap} {name nozzle : Str} {ns : List Str}
    (h : lookupA name printers = some (some ns)) (hm : nozzle ∈ ns) :
    has_printer_and_nozzle printers name nozzle = printers := by
  unfold has_printer_and_nozzle
  rw [h]
  simp [hm]

theorem hpn_lookup (printers : PropMap) (name nozzle : Str) :
    ∃ ns, lookupA name (has_printer_and_nozzle printers name nozzle) = some (some ns)
      ∧ nozzle ∈ ns := by
  rcases h : lookupA name printers with _ | v
  · exact ⟨[nozzle], by rw [hpn_of_none nozzle h]; exact lookupA_insertA_self .., by simp⟩
  · rcases v with _ | ns
    · exact ⟨[nozzle], by rw [hpn_of_some_none nozzle h]; exact lookupA_insertA_self .., by simp⟩
    · by_cases hm : nozzle ∈ ns
      · exact ⟨ns, by rw [hpn_of_mem h hm]; exact h, hm⟩
      · exact ⟨ns ++ [nozzle], by rw [hpn_of_not_mem h hm]; exact lookupA_insertA_self ..,
          by simp⟩

/-! ## Claim theorems for the keyed-map side -/

/-- C4: ConfigFile::to_map applies last-write-wins.  The global mapping binds
a key to the value of the last global property carrying that key, and the
section mapping binds a name to the per-section map built from the last
section of that name alone (an earlier section of the same name contributes
nothing: its entire mapping is overwritten, not merged). -/
theorem C4_last_write_wins (doc : ConfigFile) (k n : Str) :
    lookupA k ((doc.to_map).properties) =
      ((doc.properties.filter (fun p => decide (p.key = k))).getLast?).map Property.value
    ∧ lookupA n ((doc.to_map).sections) =
      ((doc.sections.filter (fun s => decide (s.name = n))).getLast?).map
        (fun s => propsToMap s.properties) := by
  constructor
  · rw [to_map_properties, show propsToMap doc.properties =
      doc.properties.foldl (fun m p => insertA p.key p.value m) [] from rfl,
      lookupA_foldl_insert Property.key Property.value k doc.properties []]
    simp [lookupA]
  · rw [to_map_sections,
      lookupA_foldl_insert Section.name (fun s => propsToMap s.properties) n doc.sections []]
    simp [lookupA]

/-- C10: after has_printer_and_nozzle(map, name, nozzle) the map binds name to
a present nozzle list containing nozzle; an absent printer becomes
Some([nozzle]), a printer bound to None becomes Some([nozzle]), a nozzle list
without the nozzle gets it appended once, a nozzle list already containing it
is left alone; and the operation is idempotent. -/
theorem C10_has_printer_and_nozzle (printers : PropMap) (name nozzle : Str) :
    (∃ ns, lookupA name (has_printer_and_nozzle printers name nozzle) = some (some ns)
      ∧ nozzle ∈ ns)
    ∧ (lookupA name printers = none →
        has_printer_and_nozzle printers name nozzle = insertA name (some [nozzle]) printers)
    ∧ (lookupA name printers = some none →
        has_printer_and_nozzle printers name nozzle = insertA name (some [nozzle]) printers)
    ∧ (∀ ns, lookupA name printers = some (some ns) → nozzle ∉ ns →
        has_printer_and_nozzle printers name nozzle =
          insertA name (some (ns ++ [nozzle])) printers)
    ∧ (∀ ns, lookupA name printers = some (some ns) → nozzle ∈ ns →
        has_printer_and_nozzle printers name nozzle = printers)
    ∧ has_printer_and_nozzle (has_printer_and_nozzle printers name nozzle) name nozzle =
        has_printer_and_nozzle printers name nozzle := by
  refine ⟨hpn_lookup printers name nozzle, hpn_of_none nozzle, hpn_of_some_none nozzle,
    fun ns h hm => hpn_of_not_mem h hm, fun ns h hm => hpn_of_mem h hm, ?_⟩
  obtain ⟨ns, hl, hm⟩ := hpn_lookup printers name nozzle
  exact hpn_of_mem hl hm

/-- C10 witness: on the empty printer map, adding printer p with nozzle 0.4
yields exactly the singleton binding, and the binding contains the nozzle. -/
theorem C10_has_printer_and_nozzle_witness :
    has_printer_and_nozzle [] "p".toList "0.4".toList =
      insertA "p".toList (some ["0.4".toList]) []
    ∧ ∃ ns, lookupA "p".toList (has_printer_and_nozzle [] "p".toList "0.4".toList) =
        some (some ns) ∧ "0.4".toList ∈ ns :=
  ⟨(C10_has_printer_and_nozzle [] "p".toList "0.4".toList).2.1 (by decide),
    (C10_has_printer_and_nozzle [] "p".toList "0.4".toList).1⟩

/-- C3: ConfigMap::to_file always yields a section list sorted by name in
byte-wise lexicographic order, and on maps whose section names are distinct
(as the contents of a hash map always are) the resulting section list does
not depend on the iteration order of the map. -/
theorem C3_sections_sorted (m m' : ConfigMap) :
    ((m.to_file).sections.map Section.name).Pairwise (fun a b => strLe a b = true)
    ∧ (m.sections.Perm m'.sections → (m.sections.map Prod.fst).Nodup →
        (m.to_file).sections = (m'.to_file).sections) := by
  constructor
  · rw [to_file_sections]
    exact List.pairwise_map.mpr (sortSections_pairwise _)
  · intro hperm hnd
    rw [to_file_sections, to_file_sections]
    have hnames : (m.sections.map (fun kv => ConfigMap.section_to_file kv.1 kv.2)).map
        Section.name = m.sections.map Prod.fst := by
      rw [List.map_map]
      rfl
    have hLperm : (m.sections.map (fun kv => ConfigMap.section_to_file kv.1 kv.2)).Perm
        (m'.sections.map (fun kv => ConfigMap.section_to_file kv.1 kv.2)) :=
      hperm.map _
    have hsortperm :
        (sortSections (m.sections.map (fun kv => ConfigMap.section_to_file kv.1 kv.2))).Perm
          (sortSections (m'.sections.map (fun kv => ConfigMap.section_to_file kv.1 kv.2))) :=
      ((sortSections_perm _).trans hLperm).trans (sortSections_perm _).symm
    have hnd1 : ((sortSections (m.sections.map
        (fun kv => ConfigMap.section_to_file kv.1 kv.2))).map Section.name).Nodup := by
      refine ((sortSections_perm _).map Section.name).nodup_iff.mpr ?_
      rw [hnames]
      exact hnd
    have hnd2 : ((sortSections (m'.sections.map
        (fun kv => ConfigMap.section_to_file kv.1 kv.2))).map Section.name).Nodup :=
      ((hsortperm.map Section.name).nodup_iff).mp hnd1
    have hpw1 : (sortSections (m.sections.map
        (fun kv => ConfigMap.section_to_file kv.1 kv.2))).Pairwise
        (fun a b => secLe a b ∧ a.name ≠ b.name) :=
      (sortSections_pairwise _).and (List.pairwise_map.mp hnd1)
    have hpw2 : (sortSections (m'.sections.map
        (fun kv => ConfigMap.section_to_file kv.1 kv.2))).Pairwise
        (fun a b => secLe a b ∧ a.name ≠ b.name) :=
      (sortSections_pairwise _).and (List.pairwise_map.mp hnd2)
    exact eq_of_perm_of_pairwise
      (fun a b hab hba => absurd (strLe_antisymm hab.1 hba.1) hab.2)
      hsortperm hpw1 hpw2

/-- C3 witness: a two-section map and its swapped-order sibling produce the
same sorted section list. -/
theorem C3_sections_sorted_witness :
    (ConfigMap.to_file { properties := [], sections := [("b".toList, []), ("a".toList, [])] }).sections =
      (ConfigMap.to_file { properties := [], sections := [("a".toList, []), ("b".toList, [])] }).sections :=
  (C3_sections_sorted
    { properties := [], sections := [("b".toList, []), ("a".toList, [])] }
    { properties := [], sections := [("a".toList, []), ("b".toList, [])] }).2
    (by decide) (by decide)

/-- C6: converting a Document to the keyed form, back to a Document and to the
keyed form again preserves the global key-to-value mapping and the section
mapping, for documents with unique global keys, unique section names and
unique keys inside every section. -/
theorem C6_roundtrip_keyed (doc : ConfigFile)
    (h1 : (doc.properties.map Property.key).Nodup)
    (h2 : (doc.sections.map Section.name).Nodup)
    (h3 : ∀ s ∈ doc.sections, (s.properties.map Property.key).Nodup) :
    (∀ k, lookupA k ((((doc.to_map).to_file).to_map).properties) =
        lookupA k ((doc.to_map).properties))
    ∧ (∀ n, lookupA n ((((doc.to_map).to_file).to_map).sections) =
        lookupA n ((doc.to_map).sections)) := by
  have hkeys : (((doc.to_map).properties).map Prod.fst).Nodup := by
    rw [to_map_properties]
    exact propsToMap_keys_nodup doc.properties
  have hprops : (((doc.to_map).to_file).to_map).properties = (doc.to_map).properties := by
    show propsToMap (ConfigMap.properties_to_file ((doc.to_map).properties)) =
      (doc.to_map).properties
    exact properties_to_file_roundtrip hkeys
  refine ⟨fun k => by rw [hprops], ?_⟩
  intro n
  have hSLnames : ((sortSections ((doc.to_map).sections.map
      (fun kv => ConfigMap.section_to_file kv.1 kv.2))).map Section.name).Nodup := by
    refine ((sortSections_perm _).map Section.name).nodup_iff.mpr ?_
    rw [List.map_map]
    exact to_map_sections_keys_nodup doc
  have hrt : (((doc.to_map).to_file).to_map).sections =
      (sortSections ((doc.to_map).sections.map
        (fun kv => ConfigMap.section_to_file kv.1 kv.2))).map
        (fun s => (s.name, propsToMap s.properties)) := by
    rw [to_map_sections, to_file_sections]
    rw [foldl_insert_eq_append Section.name (fun s => propsToMap s.properties) _ []
      hSLnames (by simp)]
    simp
  have hback : ((doc.to_map).sections.map
      (fun kv => ConfigMap.section_to_file kv.1 kv.2)).map
      (fun s => (s.name, propsToMap s.properties)) = (doc.to_map).sections := by
    rw [List.map_map]
    have heach : ∀ kv ∈ (doc.to_map).sections,
        ((fun s => (s.name, propsToMap s.properties)) ∘
          (fun kv : Str × PropMap => ConfigMap.section_to_file kv.1 kv.2)) kv = kv := by
      intro kv hkv
      show (kv.1, propsToMap (ConfigMap.properties_to_file kv.2)) = kv
      rw [properties_to_file_roundtrip (to_map_sections_values doc kv hkv)]
    rw [List.map_congr_left heach, List.map_id']
  have hperm : ((((doc.to_map).to_file).to_map).sections).Perm ((doc.to_map).sections) := by
    rw [hrt]
    refine ((sortSections_perm _).map _).trans ?_
    rw [hback]
  have hndrt : (((((doc.to_map).to_file).to_map).sections).map Prod.fst).Nodup :=
    to_map_sections_keys_nodup _
  exact lookupA_perm hperm hndrt n

/-- C6 witness: a concrete two-section document with unique keys round-trips
through the keyed form with unchanged lookups. -/
theorem C6_roundtrip_keyed_witness :
    lookupA "s".toList
        ((((ConfigFile.parseText "a = 1\n[s]\nk = v\n".toList).to_map).to_file).to_map).sections =
      lookupA "s".toList ((ConfigFile.parseText "a = 1\n[s]\nk = v\n".toList).to_map).sections :=
  (C6_roundtrip_keyed (ConfigFile.parseText "a = 1\n[s]\nk = v\n".toList)
    (by decide) (by decide) (by decide)).2 "s".toList

/-! ## The scan as a fold: bookkeeping lemmas -/

theorem lineProp_of_header {l n : Str} (h : classifyLine l = .sectionHeader n) :
    lineProp l = none := by
  unfold lineProp
  rw [h]

theorem lineProp_of_property {l k : Str} {v : Option Str}
    (h : classifyLine l = .property k v) : lineProp l = some (mkProperty k v) := by
  unfold lineProp
  rw [h]

theorem headerName_of_header {l n : Str} (h : classifyLine l = .sectionHeader n) :
    headerName l = some n := by
  unfold headerName
  rw [h]

theorem parseStep_of_header {l n : Str} (h : classifyLine l = .sectionHeader n)
    (st : ParseState) :
    parseStep st l =
      { file := commitSection st.file st.current
        current := some { name := n, properties := [] } } := by
  unfold parseStep
  rw [h]

theorem parseStep_of_property {l k : Str} {v : Option Str}
    (h : classifyLine l = .property k v) (st : ParseState) :
    parseStep st l =
      (match st.current with
        | some s =>
          { st with current := some { s with properties := s.properties ++ [mkProperty k v] } }
        | none =>
          { st with file :=
              { st.file with properties := st.file.properties ++ [mkProperty k v] } }) := by
  unfold parseStep
  rw [h]

theorem parseStep_of_skip {l : Str} (hp : lineProp l = none) (hh : headerName l = none)
    (st : ParseState) : parseStep st l = st := by
  unfold parseStep
  cases hcl : classifyLine l with
  | blank => rfl
  | comment text => rfl
  | error line => rfl
  | sectionHeader n =>
    rw [headerName_of_header hcl] at hh
    exact absurd hh (by simp)
  | property k v =>
    rw [lineProp_of_property hcl] at hp
    exact absurd hp (by simp)

theorem foldr_append_acc {α : Type} (A : List (List α)) (acc : List α) :
    A.foldr (· ++ ·) acc = A.foldr (· ++ ·) [] ++ acc := by
  induction A with
  | nil => simp
  | cons x xs ih => simp [List.foldr_cons, ih, List.append_assoc]

theorem commitSection_properties (f : ConfigFile) (cur : Option Section) :
    (commitSection f cur).properties = f.properties := by
  cases cur <;> rfl

theorem commitSection_names (f : ConfigFile) (cur : Option Section) :
    (commitSection f cur).sections.map Section.name =
      f.sections.map Section.name ++
        (match cur with
          | some s => [s.name]
          | none => []) := by
  cases cur <;> simp [commitSection]

theorem allProps_commit (f : ConfigFile) (cur : Option Section) :
    allProps (commitSection f cur) =
      allProps f ++
        (match cur with
          | some s => s.properties
          | none => []) := by
  cases cur with
  | none => simp [commitSection]
  | some s =>
    unfold commitSection allProps
    rw [List.map_append, List.foldr_append, foldr_append_acc (f.sections.map Section.properties)]
    simp [List.append_assoc]

theorem stateProps_step {st : ParseState} (hwf : NoSecWF st) (l : Str) :
    stateProps (parseStep st l) = stateProps st ++ (lineProp l).toList := by
  cases hcl : classifyLine l with
  | sectionHeader n =>
    rw [parseStep_of_header hcl, lineProp_of_header hcl]
    unfold stateProps
    rw [allProps_commit]
    cases st.current <;> simp
  | property k v =>
    rw [parseStep_of_property hcl, lineProp_of_property hcl]
    cases hcur : st.current with
    | some s =>
      unfold stateProps
      simp [hcur, List.append_assoc]
    | none =>
      have hsec : st.file.sections = [] := hwf hcur
      unfold stateProps allProps
      simp [hcur, hsec]
  | blank =>
    rw [parseStep_of_skip (by unfold lineProp; rw [hcl]) (by unfold headerName; rw [hcl]),
      show lineProp l = none by unfold lineProp; rw [hcl]]
    simp
  | comment text =>
    rw [parseStep_of_skip (by unfold lineProp; rw [hcl]) (by unfold headerName; rw [hcl]),
      show lineProp l = none by unfold lineProp; rw [hcl]]
    simp
  | error line =>
    rw [parseStep_of_skip (by unfold lineProp; rw [hcl]) (by unfold headerName; rw [hcl]),
      show lineProp l = none by unfold lineProp; rw [hcl]]
    simp

theorem noSecWF_step {st : ParseState} (hwf : NoSecWF st) (l : Str) :
    NoSecWF (parseStep st l) := by
  cases hcl : classifyLine l with
  | sectionHeader n =>
    rw [parseStep_of_header hcl]
    intro hc
    simp at hc
  | property k v =>
    rw [parseStep_of_property hcl]
    cases hcur : st.current with
    | some s =>
      intro hc
      simp at hc
    | none =>
      intro hc
      exact hwf hcur
  | blank =>
    rw [parseStep_of_skip (by unfold lineProp; rw [hcl]) (by unfold headerName; rw [hcl])]
    exact hwf
  | comment text =>
    rw [parseStep_of_skip (by unfold lineProp; rw [hcl]) (by unfold headerName; rw [hcl])]
    exact hwf
  | error line =>
    rw [parseStep_of_skip (by unfold lineProp; rw [hcl]) (by unfold headerName; rw [hcl])]
    exact hwf

theorem stateNames_step (st : ParseState) (l : Str) :
    stateNames (parseStep st l) = stateNames st ++ (headerName l).toList := by
  cases hcl : classifyLine l with
  | sectionHeader n =>
    rw [parseStep_of_header hcl, headerName_of_header hcl]
    unfold stateNames
    rw [commitSection_names]
    cases st.current <;> simp
  | property k v =>
    rw [parseStep_of_property hcl,
      show headerName l = none by unfold headerName; rw [hcl]]
    cases hcur : st.current with
    | some s => simp [stateNames, hcur]
    | none => simp [stateNames, hcur]
  | blank =>
    rw [parseStep_of_skip (by unfold lineProp; rw [hcl]) (by unfold headerName; rw [hcl]),
      show headerName l = none by unfold headerName; rw [hcl]]
    simp
  | comment text =>
    rw [parseStep_of_skip (by unfold lineProp; rw [hcl]) (by unfold headerName; rw [hcl]),
      show headerName l = none by unfold headerName; rw [hcl]]
    simp
  | error line =>
    rw [parseStep_of_skip (by unfold lineProp; rw [hcl]) (by unfold headerName; rw [hcl]),
      show headerName l = none by unfold headerName; rw [hcl]]
    simp

theorem stateProps_fold {ls : List Str} {st : ParseState} (hwf : NoSecWF st) :
    stateProps (ls.foldl parseStep st) = stateProps st ++ ls.filterMap lineProp
      ∧ NoSecWF (ls.foldl parseStep st) := by
  induction ls generalizing st with
  | nil => exact ⟨by simp, hwf⟩
  | cons l ls ih =>
    rw [List.foldl_cons]
    obtain ⟨h1, h2⟩ := ih (noSecWF_step hwf l)
    refine ⟨?_, h2⟩
    rw [h1, stateProps_step hwf l, List.filterMap_cons]
    cases hlp : lineProp l <;> simp [List.append_assoc]

theorem stateNames_fold (ls : List Str) (st : ParseState) :
    stateNames (ls.foldl parseStep st) = stateNames st ++ ls.filterMap headerName := by
  induction ls generalizing st with
  | nil => simp
  | cons l ls ih =>
    rw [List.foldl_cons, ih, stateNames_step st l, List.filterMap_cons]
    cases hh : headerName l <;> simp [List.append_assoc]

theorem allProps_finishParse (st : ParseState) : allProps (finishParse st) = stateProps st := by
  unfold finishParse stateProps
  rw [allProps_commit]

theorem names_finishParse (st : ParseState) :
    (finishParse st).sections.map Section.name = stateNames st := by
  unfold finishParse stateNames
  rw [commitSection_names]

theorem allProps_parseText (t : Str) :
    allProps (ConfigFile.parseText t) = (splitOnChar '\n' t).filterMap lineProp := by
  unfold ConfigFile.parseText ConfigFile.parseLines
  rw [allProps_finishParse,
    (@stateProps_fold (splitOnChar '\n' t)
      { file := { properties := [], sections := [] }, current := none } (by intro h; rfl)).1]
  rfl

theorem sectionNames_parseText (t : Str) :
    (ConfigFile.parseText t).sections.map Section.name =
      (splitOnChar '\n' t).filterMap headerName := by
  unfold ConfigFile.parseText ConfigFile.parseLines
  rw [names_finishParse, stateNames_fold]
  rfl

theorem fold_nonheader_none {ls : List Str} {st : ParseState} (hcur : st.current = none)
    (h : ∀ l ∈ ls, isHeaderLine l = false) :
    ls.foldl parseStep st =
      { file := { properties := st.file.properties ++ ls.filterMap lineProp
                  sections := st.file.sections }
        current := none } := by
  induction ls generalizing st with
  | nil =>
    simp only [List.foldl_nil, List.filterMap_nil, List.append_nil]
    rw [← hcur]
  | cons l ls ih =>
    rw [List.foldl_cons, List.filterMap_cons]
    cases hcl : classifyLine l with
    | sectionHeader n =>
      exfalso
      have hl := h l (by simp)
      rw [show isHeaderLine l = true by
        unfold isHeaderLine; rw [headerName_of_header hcl]; rfl] at hl
      exact absurd hl (by simp)
    | property k v =>
      have hstep : parseStep st l =
          { file := { properties := st.file.properties ++ [mkProperty k v]
                      sections := st.file.sections }
            current := none } := by
        rw [parseStep_of_property hcl, hcur]
      rw [hstep, lineProp_of_property hcl,
        @ih { file := { properties := st.file.properties ++ [mkProperty k v]
                        sections := st.file.sections }, current := none } rfl
          (fun x hx => h x (by simp [hx]))]
      simp
    | blank =>
      have hp : lineProp l = none := by unfold lineProp; rw [hcl]
      have hh : headerName l = none := by unfold headerName; rw [hcl]
      rw [parseStep_of_skip hp hh, hp, ih hcur (fun x hx => h x (by simp [hx]))]
    | comment text =>
      have hp : lineProp l = none := by unfold lineProp; rw [hcl]
      have hh : headerName l = none := by unfold headerName; rw [hcl]
      rw [parseStep_of_skip hp hh, hp, ih hcur (fun x hx => h x (by simp [hx]))]
    | error line =>
      have hp : lineProp l = none := by unfold lineProp; rw [hcl]
      have hh : headerName l = none := by unfold headerName; rw [hcl]
      rw [parseStep_of_skip hp hh, hp, ih hcur (fun x hx => h x (by simp [hx]))]

theorem fold_some_globals {ls : List Str} {st : ParseState} (hcur : st.current.isSome) :
    ((ls.foldl parseStep st).file).properties = st.file.properties
      ∧ ((ls.foldl parseStep st).current).isSome := by
  induction ls generalizing st with
  | nil => exact ⟨rfl, hcur⟩
  | cons l ls ih =>
    rw [List.foldl_cons]
    obtain ⟨s, hs⟩ := Option.isSome_iff_exists.mp hcur
    have step : (parseStep st l).file.properties = st.file.properties
        ∧ ((parseStep st l).current).isSome := by
      cases hcl : classifyLine l with
      | sectionHeader n =>
        rw [parseStep_of_header hcl]
        exact ⟨commitSection_properties st.file st.current, by simp⟩
      | property k v =>
        have hstep : parseStep st l =
            { st with current := some { name := s.name
                                        properties := s.properties ++ [mkProperty k v] } } := by
          rw [parseStep_of_property hcl, hs]
        rw [hstep]
        exact ⟨rfl, by simp⟩
      | blank =>
        rw [parseStep_of_skip (by unfold lineProp; rw [hcl]) (by unfold headerName; rw [hcl])]
        exact ⟨rfl, hcur⟩
      | comment text =>
        rw [parseStep_of_skip (by unfold lineProp; rw [hcl]) (by unfold headerName; rw [hcl])]
        exact ⟨rfl, hcur⟩
      | error line =>
        rw [parseStep_of_skip (by unfold lineProp; rw [hcl]) (by unfold headerName; rw [hcl])]
        exact ⟨rfl, hcur⟩
    obtain ⟨ih1, ih2⟩ := ih step.2
    exact ⟨ih1.trans step.1, ih2⟩

theorem parseText_globals (t : Str) :
    (ConfigFile.parseText t).properties =
      ((splitOnChar '\n' t).takeWhile (fun l => !(isHeaderLine l))).filterMap lineProp := by
  unfold ConfigFile.parseText ConfigFile.parseLines
  rw [show splitOnChar '\n' t =
      (splitOnChar '\n' t).takeWhile (fun l => !(isHeaderLine l)) ++
        (splitOnChar '\n' t).dropWhile (fun l => !(isHeaderLine l)) from
    (List.takeWhile_append_dropWhile (p := fun l => !(isHeaderLine l))
      (l := splitOnChar '\n' t)).symm]
  rw [List.foldl_append]
  rw [@fold_nonheader_none ((splitOnChar '\n' t).takeWhile (fun l => !(isHeaderLine l)))
    { file := { properties := [], sections := [] }, current := none } rfl
    (fun l hl => by
      have := List.mem_takeWhile_imp hl
      simpa using this)]
  rcases hd : (splitOnChar '\n' t).dropWhile (fun l => !(isHeaderLine l)) with _ | ⟨d, ds⟩
  · simp [finishParse, commitSection, List.takeWhile_idem]
  · have hdh : isHeaderLine d = true := by
      have := List.head?_dropWhile_not (fun l => !(isHeaderLine l)) (splitOnChar '\n' t)
      rw [hd] at this
      simpa using this
    obtain ⟨n, hn⟩ : ∃ n, classifyLine d = .sectionHeader n := by
      unfold isHeaderLine headerName at hdh
      cases hcl : classifyLine d <;> rw [hcl] at hdh <;> simp at hdh
      exact ⟨_, rfl⟩
    rw [List.foldl_cons, parseStep_of_header hn]
    have hfold : ∀ (f : ConfigFile) (s : Section),
        ((ds.foldl parseStep { file := f, current := some s }).file).properties =
          f.properties :=
      fun f s => (@fold_some_globals ds { file := f, current := some s } (by simp)).1
    unfold finishParse
    rw [commitSection_properties, hfold, commitSection_properties]
    simp
    rw [List.takeWhile_append_of_pos (p := fun l => !(isHeaderLine l))
      (fun a ha => by simpa using List.mem_takeWhile_imp ha),
      List.takeWhile_cons_of_neg (by simp [hdh]), List.append_nil]

theorem segmentSections_cons_header {l n : Str} (ls : List Str)
    (h : headerName l = some n) :
    segmentSections (l :: ls) =
      { name := n
        properties := (ls.takeWhile (fun x => !(isHeaderLine x))).filterMap lineProp } ::
        segmentSections ls := by
  simp [segmentSections, h]

theorem segmentSections_cons_skip {l : Str} (ls : List Str) (h : headerName l = none) :
    segmentSections (l :: ls) = segmentSections ls := by
  simp [segmentSections, h]

theorem isHeaderLine_false_of_none {l : Str} (h : headerName l = none) :
    isHeaderLine l = false := by
  unfold isHeaderLine
  rw [h]
  rfl

theorem fold_segment_some (ls : List Str) :
    ∀ (f : ConfigFile) (s : Section),
    (finishParse (ls.foldl parseStep { file := f, current := some s })).sections =
      f.sections ++
        ({ name := s.name
           properties := s.properties ++
             (ls.takeWhile (fun x => !(isHeaderLine x))).filterMap lineProp } ::
          segmentSections ls) := by
  induction ls with
  | nil =>
    intro f s
    simp [finishParse, commitSection, segmentSections]
  | cons l ls ih =>
    intro f s
    rw [List.foldl_cons]
    cases hcl : classifyLine l with
    | sectionHeader n =>
      have hhn : headerName l = some n := headerName_of_header hcl
      have hstep : parseStep { file := f, current := some s } l =
          { file := { properties := f.properties, sections := f.sections ++ [s] }
            current := some { name := n, properties := [] } } := by
        rw [parseStep_of_header hcl]
        rfl
      rw [hstep, ih, segmentSections_cons_header ls hhn,
        List.takeWhile_cons_of_neg (by simp [isHeaderLine, hhn])]
      simp
    | property k v =>
      have hhn : headerName l = none := by unfold headerName; rw [hcl]
      have hstep : parseStep { file := f, current := some s } l =
          { file := f
            current := some { name := s.name
                              properties := s.properties ++ [mkProperty k v] } } := by
        rw [parseStep_of_property hcl]
      rw [hstep, ih, segmentSections_cons_skip ls hhn,
        List.takeWhile_cons_of_pos (by simp [isHeaderLine_false_of_none hhn]),
        List.filterMap_cons, lineProp_of_property hcl]
      simp
    | blank =>
      have hhn : headerName l = none := by unfold headerName; rw [hcl]
      have hp : lineProp l = none := by unfold lineProp; rw [hcl]
      rw [parseStep_of_skip hp hhn, ih, segmentSections_cons_skip ls hhn,
        List.takeWhile_cons_of_pos (by simp [isHeaderLine_false_of_none hhn]),
        List.filterMap_cons, hp]
    | comment text =>
      have hhn : headerName l = none := by unfold headerName; rw [hcl]
      have hp : lineProp l = none := by unfold lineProp; rw [hcl]
      rw [parseStep_of_skip hp hhn, ih, segmentSections_cons_skip ls hhn,
        List.takeWhile_cons_of_pos (by simp [isHeaderLine_false_of_none hhn]),
        List.filterMap_cons, hp]
    | error line =>
      have hhn : headerName l = none := by unfold headerName; rw [hcl]
      have hp : lineProp l = none := by unfold lineProp; rw [hcl]
      rw [parseStep_of_skip hp hhn, ih, segmentSections_cons_skip ls hhn,
        List.takeWhile_cons_of_pos (by simp [isHeaderLine_false_of_none hhn]),
        List.filterMap_cons, hp]

theorem fold_segment_none (ls : List Str) :
    ∀ (f : ConfigFile),
    (finishParse (ls.foldl parseStep { file := f, current := none })).sections =
      f.sections ++ segmentSections ls := by
  induction ls with
  | nil =>
    intro f
    simp [finishParse, commitSection, segmentSections]
  | cons l ls ih =>
    intro f
    rw [List.foldl_cons]
    cases hcl : classifyLine l with
    | sectionHeader n =>
      have hhn : headerName l = some n := headerName_of_header hcl
      have hstep : parseStep { file := f, current := none } l =
          { file := f, current := some { name := n, properties := [] } } := by
        rw [parseStep_of_header hcl]
        rfl
      rw [hstep, fold_segment_some ls f { name := n, properties := [] },
        segmentSections_cons_header ls hhn]
      simp
    | property k v =>
      have hhn : headerName l = none := by unfold headerName; rw [hcl]
      have hstep : parseStep { file := f, current := none } l =
          { file := { properties := f.properties ++ [mkProperty k v]
                      sections := f.sections }
            current := none } := by
        rw [parseStep_of_property hcl]
      rw [hstep, ih, segmentSections_cons_skip ls hhn]
    | blank =>
      have hhn : headerName l = none := by unfold headerName; rw [hcl]
      rw [parseStep_of_skip (by unfold lineProp; rw [hcl]) hhn, ih,
        segmentSections_cons_skip ls hhn]
    | comment text =>
      have hhn : headerName l = none := by unfold headerName; rw [hcl]
      rw [parseStep_of_skip (by unfold lineProp; rw [hcl]) hhn, ih,
        segmentSections_cons_skip ls hhn]
    | error line =>
      have hhn : headerName l = none := by unfold headerName; rw [hcl]
      rw [parseStep_of_skip (by unfold lineProp; rw [hcl]) hhn, ih,
        segmentSections_cons_skip ls hhn]

theorem parseText_sections (t : Str) :
    (ConfigFile.parseText t).sections = segmentSections (splitOnChar '\n' t) := by
  unfold ConfigFile.parseText ConfigFile.parseLines
  rw [fold_segment_none (splitOnChar '\n' t) { properties := [], sections := [] }]
  rfl

/-! ## Claim theorems for the scan -/

/-- C7: ConfigFile::parse is total: it returns Ok of the scanned file on every
input; a line that is neither a header nor a property is skipped without
stopping the scan, and every recognized property line produces exactly one
Property in the correct list: the global list holds exactly the property
lines before the first section-header line, and every header line opens a
Section holding exactly the property lines up to the next header line (its
current section's list), in order. -/
theorem C7_parse_total (t : Str) :
    ConfigFile.parse t = Except.ok (ConfigFile.parseText t)
    ∧ allProps (ConfigFile.parseText t) = (splitOnChar '\n' t).filterMap lineProp
    ∧ (ConfigFile.parseText t).properties =
        ((splitOnChar '\n' t).takeWhile (fun l => !(isHeaderLine l))).filterMap lineProp
    ∧ (ConfigFile.parseText t).sections = segmentSections (splitOnChar '\n' t) :=
  ⟨rfl, allProps_parseText t, parseText_globals t, parseText_sections t⟩

/-- C9: every property produced by the parser has either no value or a
non-empty token list none of whose tokens contains a semicolon; the state
Some of an empty sequence is never produced. -/
theorem C9_value_invariant (t : Str) (p : Property)
    (h : p ∈ allProps (ConfigFile.parseText t)) :
    p.value = none ∨ ∃ ts, p.value = some ts ∧ ts ≠ [] ∧ ∀ tok ∈ ts, ';' ∉ tok := by
  rw [allProps_parseText] at h
  obtain ⟨l, hl, hlp⟩ := List.mem_filterMap.mp h
  unfold lineProp at hlp
  cases hcl : classifyLine l with
  | blank => rw [hcl] at hlp; exact absurd hlp (by simp)
  | comment text => rw [hcl] at hlp; exact absurd hlp (by simp)
  | sectionHeader n => rw [hcl] at hlp; exact absurd hlp (by simp)
  | error line => rw [hcl] at hlp; exact absurd hlp (by simp)
  | property k v =>
  rw [hcl] at hlp
  have hp : p = mkProperty k v := (Option.some.inj hlp).symm
  subst hp
  cases v with
  | none => exact Or.inl rfl
  | some raw =>
    refine Or.inr ⟨splitOnChar ';' raw, rfl, splitOnChar_ne_nil ';' raw, ?_⟩
    intro tok htok
    exact not_mem_of_mem_splitOnChar htok

/-- C9 witness: the two-token property parsed from a concrete line satisfies
the value invariant. -/
theorem C9_value_invariant_witness :
    ({ key := "a".toList, value := some ["1".toList, "2".toList] } : Property) ∈
        allProps (ConfigFile.parseText "a = 1;2".toList)
    ∧ (({ key := "a".toList, value := some ["1".toList, "2".toList] } : Property).value = none
        ∨ ∃ ts, ({ key := "a".toList, value := some ["1".toList, "2".toList] } : Property).value =
            some ts ∧ ts ≠ [] ∧ ∀ tok ∈ ts, ';' ∉ tok) :=
  ⟨by decide, C9_value_invariant "a = 1;2".toList _ (by decide)⟩

theorem fold_nonheader_some {ls : List Str} {f : ConfigFile} {s : Section}
    (h : ∀ l ∈ ls, isHeaderLine l = false) :
    ls.foldl parseStep { file := f, current := some s } =
      { file := f
        current := some { name := s.name
                          properties := s.properties ++ ls.filterMap lineProp } } := by
  induction ls generalizing s with
  | nil => simp
  | cons l ls ih =>
    rw [List.foldl_cons, List.filterMap_cons]
    cases hcl : classifyLine l with
    | sectionHeader n =>
      exfalso
      have hl := h l (by simp)
      rw [show isHeaderLine l = true by
        unfold isHeaderLine; rw [headerName_of_header hcl]; rfl] at hl
      exact absurd hl (by simp)
    | property k v =>
      have hstep : parseStep { file := f, current := some s } l =
          { file := f
            current := some { name := s.name
                              properties := s.properties ++ [mkProperty k v] } } := by
        rw [parseStep_of_property hcl]
      rw [hstep, lineProp_of_property hcl, ih (fun x hx => h x (by simp [hx]))]
      simp
    | blank =>
      have hp : lineProp l = none := by unfold lineProp; rw [hcl]
      rw [parseStep_of_skip hp (by unfold headerName; rw [hcl]), hp,
        ih (fun x hx => h x (by simp [hx]))]
    | comment text =>
      have hp : lineProp l = none := by unfold lineProp; rw [hcl]
      rw [parseStep_of_skip hp (by unfold headerName; rw [hcl]), hp,
        ih (fun x hx => h x (by simp [hx]))]
    | error line =>
      have hp : lineProp l = none := by unfold lineProp; rw [hcl]
      rw [parseStep_of_skip hp (by unfold headerName; rw [hcl]), hp,
        ih (fun x hx => h x (by simp [hx]))]

/-- C5: an input that ends while a section is open still commits that last
section: its accumulated properties (those of the property lines after its
header) appear as the final Section, exactly as if an explicit section end
occurred at end of input. -/
theorem C5_eof_commits_last_section (pre suf name : Str) (h1 : ']' ∉ name)
    (h2 : '\n' ∉ name) (h3 : ∀ l ∈ splitOnChar '\n' suf, isHeaderLine l = false) :
    (ConfigFile.parseText
        (pre ++ '\n' :: '[' :: (name ++ ']' :: '\n' :: suf))).sections.getLast? =
      some { name := trimStr name
             properties := (splitOnChar '\n' suf).filterMap lineProp } := by
  have hH : classifyLine ('[' :: (name ++ [']'])) = .sectionHeader (trimStr name) := by
    have htu : takeUntil ']' (name ++ [']']) = some name := by
      rw [show (name ++ [']'] : Str) = name ++ ']' :: [] from rfl]
      exact takeUntil_append [] h1
    unfold classifyLine
    rw [show trimStr ('[' :: (name ++ [']'])) = '[' :: (name ++ [']']) from
      trimStr_cons_concat name (by decide) (by decide)]
    simp [htu]
  unfold ConfigFile.parseText ConfigFile.parseLines
  rw [show pre ++ '\n' :: '[' :: (name ++ ']' :: '\n' :: suf) =
      pre ++ '\n' :: (('[' :: (name ++ [']'])) ++ '\n' :: suf) by simp]
  rw [splitOnChar_append_sep, splitOnChar_append_sep,
    splitOnChar_of_not_mem (s := '[' :: (name ++ [']'])) ?hnl]
  case hnl =>
    intro hm
    rcases List.mem_cons.mp hm with hm | hm
    · exact absurd hm (by decide)
    · rcases List.mem_append.mp hm with hm | hm
      · exact h2 hm
      · exact absurd hm (by decide)
  rw [List.foldl_append, List.singleton_append, List.foldl_cons,
    parseStep_of_header hH, fold_nonheader_some h3]
  unfold finishParse
  rw [show commitSection
      (commitSection (List.foldl parseStep
        { file := { properties := [], sections := [] }, current := none }
        (splitOnChar '\n' pre)).file
        (List.foldl parseStep
          { file := { properties := [], sections := [] }, current := none }
          (splitOnChar '\n' pre)).current)
      (some { name := trimStr name
              properties := [] ++ (splitOnChar '\n' suf).filterMap lineProp }) =
    { properties := (commitSection (List.foldl parseStep
        { file := { properties := [], sections := [] }, current := none }
        (splitOnChar '\n' pre)).file
        (List.foldl parseStep
          { file := { properties := [], sections := [] }, current := none }
          (splitOnChar '\n' pre)).current).properties
      sections := (commitSection (List.foldl parseStep
        { file := { properties := [], sections := [] }, current := none }
        (splitOnChar '\n' pre)).file
        (List.foldl parseStep
          { file := { properties := [], sections := [] }, current := none }
          (splitOnChar '\n' pre)).current).sections ++
        [{ name := trimStr name
           properties := [] ++ (splitOnChar '\n' suf).filterMap lineProp }] } from rfl]
  rw [List.getLast?_concat]
  simp

/-- C5 witness: a concrete text ending inside an open section commits that
section with its properties. -/
theorem C5_eof_commits_last_section_witness :
    (ConfigFile.parseText
        ("x = 1".toList ++ '\n' :: '[' ::
          ("sec".toList ++ ']' :: '\n' :: "a = 1\n# done".toList))).sections.getLast? =
      some { name := trimStr "sec".toList
             properties := (splitOnChar '\n' "a = 1\n# done".toList).filterMap lineProp } :=
  C5_eof_commits_last_section "x = 1".toList "a = 1\n# done".toList "sec".toList
    (by decide) (by decide) (by decide)

/-! ## The formatter as a list of lines -/

theorem linesText_cons (l : Str) (ls : List Str) :
    linesText (l :: ls) = l ++ '\n' :: linesText ls := rfl

theorem linesText_append (a b : List Str) :
    linesText (a ++ b) = linesText a ++ linesText b := by
  induction a with
  | nil => rfl
  | cons l ls ih =>
    rw [List.cons_append, linesText_cons, linesText_cons, ih]
    simp

theorem add_property_eq (str : Str) (p : Property) :
    ConfigFile.add_property str p = str ++ propBody p ++ ['\n'] := by
  unfold ConfigFile.add_property propBody
  cases hv : p.value <;> simp [hv, List.append_assoc]

theorem foldl_add_property (ps : List Property) (str : Str) :
    ps.foldl ConfigFile.add_property str = str ++ linesText (ps.map propBody) := by
  induction ps generalizing str with
  | nil => simp [linesText]
  | cons p ps ih =>
    rw [List.foldl_cons, add_property_eq, ih, List.map_cons, linesText_cons]
    simp

theorem add_section_eq (str : Str) (s : Section) :
    ConfigFile.add_section str s = str ++ linesText (sectionLines s) := by
  unfold ConfigFile.add_section
  rw [foldl_add_property]
  unfold sectionLines headerBody
  rw [linesText_cons, linesText_cons]
  simp

theorem foldl_add_section (ss : List Section) (str : Str) :
    ss.foldl ConfigFile.add_section str =
      str ++ linesText ((ss.map sectionLines).foldr (· ++ ·) []) := by
  induction ss generalizing str with
  | nil => simp [linesText]
  | cons s ss ih =>
    rw [List.foldl_cons, add_section_eq, ih, List.map_cons, List.foldr_cons,
      linesText_append]
    simp

theorem format_eq_linesText (d : ConfigFile) :
    ConfigFile.format d [] = linesText (fileLines d) := by
  unfold ConfigFile.format fileLines
  rw [foldl_add_property, foldl_add_section, linesText_append]
  simp

theorem splitOnChar_linesText {ls : List Str} (h : ∀ l ∈ ls, '\n' ∉ l) :
    splitOnChar '\n' (linesText ls) = ls ++ [[]] := by
  induction ls with
  | nil => rfl
  | cons l ls ih =>
    rw [linesText_cons, splitOnChar_append_sep, splitOnChar_of_not_mem (h l (by simp)),
      ih (fun x hx => h x (by simp [hx]))]
    rfl

/-! ## Trim computations for the reparse -/

theorem trimmed_head_not_ws {k : Str} {c : Char} {t : Str} (h : Trimmed k)
    (he : k = c :: t) : isWs c = false :=
  not_ws_of_dropWs_cons_eq (he ▸ h.1)

theorem trimmed_rev_head_not_ws {k : Str} {c : Char} {t : Str} (h : Trimmed k)
    (he : k.reverse = c :: t) : isWs c = false :=
  not_ws_of_dropWs_cons_eq (he ▸ h.2)

theorem trimStr_append_ws {k : Str} (h : Trimmed k) : trimStr (k ++ [' ']) = k := by
  rcases hk : k with _ | ⟨c, ks⟩
  · rfl
  · have hc : isWs c = false := trimmed_head_not_ws h hk
    unfold trimStr
    rw [show ((c :: ks) ++ [' '] : Str) = c :: (ks ++ [' ']) from rfl,
      dropWs_of_head_not_ws hc,
      show (c :: (ks ++ [' '])).reverse = ' ' :: (c :: ks).reverse by simp,
      show dropWs (' ' :: (c :: ks).reverse) = dropWs ((c :: ks).reverse) by
        rw [dropWs_cons]; simp [isWs],
      ← hk, h.2, List.reverse_reverse]

theorem trimStr_ws_cons {r : Str} (h : Trimmed r) : trimStr (' ' :: r) = r := by
  unfold trimStr
  rw [show dropWs (' ' :: r) = dropWs r by rw [dropWs_cons]; simp [isWs],
    h.1, h.2, List.reverse_reverse]

theorem head?_trimStr_cons {c : Char} (s : Str) (hc : isWs c = false) :
    (trimStr (c :: s)).head? = some c := by
  unfold trimStr
  rw [dropWs_of_head_not_ws hc,
    show (c :: s).reverse = s.reverse ++ [c] by simp]
  have hlast : (s.reverse ++ [c]).getLast? = some c := List.getLast?_concat _
  have hne : dropWs (s.reverse ++ [c]) ≠ [] := dropWs_ne_nil_of_getLast? hlast hc
  rw [List.head?_reverse, getLast?_dropWs hne, hlast]

/-! ## Classification of formatted lines -/

theorem classify_headerBody {s : Section} (h : GoodName s.name) :
    classifyLine (headerBody s) = .sectionHeader s.name := by
  obtain ⟨htr, hbr, hnl⟩ := h
  have htu : takeUntil ']' (s.name ++ [']']) = some s.name := by
    rw [show (s.name ++ [']'] : Str) = s.name ++ ']' :: [] from rfl]
    exact takeUntil_append [] hbr
  unfold headerBody classifyLine
  rw [show trimStr ('[' :: s.name ++ [']']) = '[' :: s.name ++ [']'] from
    trimStr_cons_concat s.name (by decide) (by decide)]
  rw [show ('[' :: s.name ++ [']'] : Str) = '[' :: (s.name ++ [']']) from rfl]
  simp [htu, trimStr_eq_self htr]

theorem classify_propLine {key raw : Str} (hk : GoodKey key) (hraw : Trimmed raw) :
    classifyLine (key ++ ' ' :: '=' :: ' ' :: raw) = .property key (some raw) := by
  obtain ⟨hne, htr, heq, hnl, hh, hb⟩ := hk
  obtain ⟨c, k, rfl⟩ : ∃ c k, key = c :: k := by
    rcases hx : key with _ | ⟨c, k⟩
    · exact absurd hx hne
    · exact ⟨c, k, rfl⟩
  have hc : isWs c = false := trimmed_head_not_ws htr rfl
  have hch : c ≠ '#' := by
    intro he
    rw [he] at hh
    exact hh rfl
  have hcb : c ≠ '[' := by
    intro he
    rw [he] at hb
    exact hb rfl
  have hkeq : '=' ∉ ((c :: k) ++ [' '] : Str) := by
    intro hm
    rcases List.mem_append.mp hm with hm | hm
    · exact heq hm
    · exact absurd hm (by decide)
  rcases hr : raw with _ | ⟨r, rs⟩
  · subst hr
    have htrim : trimStr ((c :: k) ++ [' ', '=', ' ']) = (c :: k) ++ [' ', '='] := by
      have h1 : dropWs ((c :: k) ++ [' ', '=', ' ']) = (c :: k) ++ [' ', '=', ' '] := by
        rw [show ((c :: k) ++ [' ', '=', ' '] : Str) = c :: (k ++ [' ', '=', ' ']) from rfl]
        exact dropWs_of_head_not_ws hc
      have h2 : ((c :: k) ++ [' ', '=', ' ']).reverse =
          ' ' :: ('=' :: ' ' :: (c :: k).reverse) := by
        simp
      have h3 : dropWs (' ' :: ('=' :: ' ' :: (c :: k).reverse)) =
          '=' :: ' ' :: (c :: k).reverse := by
        rw [dropWs_cons, if_pos (by decide)]
        exact dropWs_of_head_not_ws (by decide)
      unfold trimStr
      rw [h1, h2, h3]
      simp
    have hsplit : splitAtFirst '=' (c :: (k ++ [' ', '='])) =
        some ((c :: k) ++ [' '], []) := by
      rw [show (c :: (k ++ [' ', '=']) : Str) = ((c :: k) ++ [' ']) ++ '=' :: [] by simp]
      exact splitAtFirst_append [] hkeq
    unfold classifyLine
    rw [show ((c :: k) ++ ' ' :: '=' :: ' ' :: [] : Str) = (c :: k) ++ [' ', '=', ' ']
      from rfl]
    rw [htrim,
      show ((c :: k) ++ [' ', '='] : Str) = c :: (k ++ [' ', '=']) from rfl]
    simp [hch, hcb, hsplit]
    exact ⟨trimStr_append_ws htr, rfl⟩
  · subst hr
    have hrne : (r :: rs : Str) ≠ [] := by simp
    obtain ⟨e, es, hrev⟩ : ∃ e es, (r :: rs : Str).reverse = e :: es := by
      rcases hx : (r :: rs : Str).reverse with _ | ⟨e, es⟩
      · exact absurd (by simpa using congrArg List.reverse hx) hrne
      · exact ⟨e, es, rfl⟩
    have hews : isWs e = false := trimmed_rev_head_not_ws hraw hrev
    have htrim : trimStr ((c :: k) ++ ' ' :: '=' :: ' ' :: (r :: rs)) =
        (c :: k) ++ ' ' :: '=' :: ' ' :: (r :: rs) := by
      apply trimStr_eq_self
      constructor
      · rw [show ((c :: k) ++ ' ' :: '=' :: ' ' :: (r :: rs) : Str) =
          c :: (k ++ ' ' :: '=' :: ' ' :: (r :: rs)) from rfl]
        exact dropWs_of_head_not_ws hc
      · rw [show ((c :: k) ++ ' ' :: '=' :: ' ' :: (r :: rs)).reverse =
          e :: (es ++ [' ', '=', ' '] ++ (c :: k).reverse) by
            rw [show (' ' :: '=' :: ' ' :: (r :: rs) : Str) =
              [' ', '=', ' '] ++ (r :: rs) from rfl]
            simp [hrev]]
        exact dropWs_of_head_not_ws hews
    have hsplit : splitAtFirst '=' (c :: (k ++ ' ' :: '=' :: ' ' :: (r :: rs))) =
        some ((c :: k) ++ [' '], ' ' :: (r :: rs)) := by
      rw [show (c :: (k ++ ' ' :: '=' :: ' ' :: (r :: rs)) : Str) =
        ((c :: k) ++ [' ']) ++ '=' :: (' ' :: (r :: rs)) by simp]
      exact splitAtFirst_append (' ' :: (r :: rs)) hkeq
    unfold classifyLine
    rw [htrim,
      show ((c :: k) ++ ' ' :: '=' :: ' ' :: (r :: rs) : Str) =
        c :: (k ++ ' ' :: '=' :: ' ' :: (r :: rs)) from rfl]
    simp [hch, hcb, hsplit]
    exact ⟨trimStr_append_ws htr, trimStr_ws_cons hraw⟩

theorem propBody_eq {p : Property} {raw : Str}
    (hv : p.value = some (splitOnChar ';' raw)) :
    propBody p = p.key ++ ' ' :: '=' :: ' ' :: raw := by
  unfold propBody
  rw [hv]
  show p.key ++ ' ' :: '=' :: ' ' :: joinWith ';' (splitOnChar ';' raw) = _
  rw [joinWith_splitOnChar ';' raw]

theorem classify_propBody {p : Property} {raw : Str} (hk : GoodKey p.key)
    (hraw : Trimmed raw) (hv : p.value = some (splitOnChar ';' raw)) :
    classifyLine (propBody p) = .property p.key (some raw) := by
  rw [propBody_eq hv]
  exact classify_propLine hk hraw

/-! ## Reparsing the formatter's output -/

theorem parseStep_propBody {p : Property} (hp : GoodProp p) (st : ParseState) :
    parseStep st (propBody p) =
      (match st.current with
        | some s => { st with current := some { s with properties := s.properties ++ [p] } }
        | none =>
          { st with file := { st.file with properties := st.file.properties ++ [p] } }) := by
  obtain ⟨hk, raw, hraw, hnl, hv⟩ := hp
  rw [parseStep_of_property (classify_propBody hk hraw hv)]
  have hmk : mkProperty p.key (some raw) = p := by
    unfold mkProperty
    rw [show (some raw).map (splitOnChar ';') = some (splitOnChar ';' raw) from rfl, ← hv]
  rw [hmk]

theorem fold_propBody_some {ps : List Property} (hps : ∀ p ∈ ps, GoodProp p)
    {f : ConfigFile} {s : Section} :
    (ps.map propBody).foldl parseStep { file := f, current := some s } =
      { file := f, current := some { name := s.name, properties := s.properties ++ ps } } := by
  induction ps generalizing s with
  | nil => simp
  | cons p ps ih =>
    have hstep : parseStep { file := f, current := some s } (propBody p) =
        { file := f
          current := some { name := s.name, properties := s.properties ++ [p] } } := by
      rw [parseStep_propBody (hps p (by simp))]
    rw [List.map_cons, List.foldl_cons, hstep, ih (fun x hx => hps x (by simp [hx]))]
    simp

theorem fold_propBody_none {ps : List Property} (hps : ∀ p ∈ ps, GoodProp p)
    {f : ConfigFile} :
    (ps.map propBody).foldl parseStep { file := f, current := none } =
      { file := { properties := f.properties ++ ps, sections := f.sections }
        current := none } := by
  induction ps generalizing f with
  | nil => simp
  | cons p ps ih =>
    have hstep : parseStep { file := f, current := none } (propBody p) =
        { file := { properties := f.properties ++ [p], sections := f.sections }
          current := none } := by
      rw [parseStep_propBody (hps p (by simp))]
    rw [List.map_cons, List.foldl_cons, hstep,
      @ih (fun x hx => hps x (by simp [hx]))
        { properties := f.properties ++ [p], sections := f.sections }]
    simp

theorem fold_sectionLines {secs : List Section} (hsecs : ∀ s ∈ secs, GoodSec s)
    (f : ConfigFile) (cur : Option Section) :
    finishParse (((secs.map sectionLines).foldr (· ++ ·) [] ++ [[]]).foldl parseStep
        { file := f, current := cur }) =
      { properties := f.properties
        sections := (commitSection f cur).sections ++ secs } := by
  induction secs generalizing f cur with
  | nil =>
    have h0 : parseStep { file := f, current := cur } [] = { file := f, current := cur } :=
      parseStep_of_skip (l := []) rfl rfl _
    rw [List.map_nil, List.foldr_nil, List.nil_append, List.foldl_cons, h0, List.foldl_nil]
    unfold finishParse
    rw [← commitSection_properties f cur, List.append_nil]
  | cons s secs ih =>
    obtain ⟨hname, hprops⟩ := hsecs s (by simp)
    rw [List.map_cons, List.foldr_cons, List.append_assoc, List.foldl_append]
    have h0 : parseStep { file := f, current := cur } [] = { file := f, current := cur } :=
      parseStep_of_skip (l := []) rfl rfl _
    have hH : parseStep { file := f, current := cur } (headerBody s) =
        { file := commitSection f cur, current := some { name := s.name, properties := [] } } := by
      rw [parseStep_of_header (classify_headerBody hname)]
    rw [show sectionLines s = [] :: headerBody s :: s.properties.map propBody from rfl,
      List.foldl_cons, h0, List.foldl_cons, hH, fold_propBody_some hprops]
    rw [show ({ name := s.name, properties := [] ++ s.properties } : Section) = s by simp]
    rw [ih (fun x hx => hsecs x (by simp [hx])) (commitSection f cur) (some s)]
    rw [commitSection_properties]
    rw [show (commitSection (commitSection f cur) (some s)).sections =
      (commitSection f cur).sections ++ [s] from rfl]
    simp

theorem propBody_no_newline {p : Property} (hp : GoodProp p) : '\n' ∉ propBody p := by
  obtain ⟨⟨hne, htr, heq, hknl, hh, hb⟩, raw, hraw, hnl, hv⟩ := hp
  rw [propBody_eq hv]
  intro hm
  rcases List.mem_append.mp hm with hm | hm
  · exact hknl hm
  · rcases List.mem_cons.mp hm with hm | hm
    · exact absurd hm (by decide)
    · rcases List.mem_cons.mp hm with hm | hm
      · exact absurd hm (by decide)
      · rcases List.mem_cons.mp hm with hm | hm
        · exact absurd hm (by decide)
        · exact hnl hm

theorem mem_foldr_append {α : Type} {x : α} :
    ∀ {A : List (List α)}, x ∈ A.foldr (· ++ ·) [] → ∃ l ∈ A, x ∈ l := by
  intro A
  induction A with
  | nil => intro h; simp at h
  | cons a A ih =>
    intro h
    rcases List.mem_append.mp h with h | h
    · exact ⟨a, by simp, h⟩
    · obtain ⟨l, hl, hx⟩ := ih h
      exact ⟨l, by simp [hl], hx⟩

theorem fileLines_no_newline {d : ConfigFile} (h : GoodFile d) :
    ∀ l ∈ fileLines d, '\n' ∉ l := by
  intro l hl
  unfold fileLines at hl
  rcases List.mem_append.mp hl with hl | hl
  · obtain ⟨p, hp, hpl⟩ := List.mem_map.mp hl
    rw [← hpl]
    exact propBody_no_newline (h.1 p hp)
  · obtain ⟨ls, hls, hlin⟩ := mem_foldr_append hl
    obtain ⟨s, hs, hsl⟩ := List.mem_map.mp hls
    obtain ⟨hname, hprops⟩ := h.2 s hs
    rw [← hsl] at hlin
    unfold sectionLines at hlin
    rcases List.mem_cons.mp hlin with hlin | hlin
    · rw [hlin]
      simp
    · rcases List.mem_cons.mp hlin with hlin | hlin
      · rw [hlin]
        unfold headerBody
        intro hm
        rcases List.mem_cons.mp hm with hm | hm
        · exact absurd hm (by decide)
        · rcases List.mem_append.mp hm with hm | hm
          · exact hname.2.2 hm
          · exact absurd hm (by decide)
      · obtain ⟨p, hp, hpl⟩ := List.mem_map.mp hlin
        rw [← hpl]
        exact propBody_no_newline (hprops p hp)

theorem reparse_format {d : ConfigFile} (h : GoodFile d) :
    ConfigFile.parseText (ConfigFile.format d []) = d := by
  rw [format_eq_linesText]
  unfold ConfigFile.parseText
  rw [splitOnChar_linesText (fileLines_no_newline h)]
  unfold ConfigFile.parseLines
  rw [show fileLines d ++ [[]] = d.properties.map propBody ++
      ((d.sections.map sectionLines).foldr (· ++ ·) [] ++ [[]]) by
    unfold fileLines
    rw [List.append_assoc]]
  rw [List.foldl_append, fold_propBody_none h.1, fold_sectionLines h.2]
  simp [commitSection]

/-! ## Structural goodness of parser output -/

theorem mem_of_mem_trimStr_line {l : Str} {x : Char} {c : Char} {rest : Str}
    (he : trimStr l = c :: rest) (hx : x ∈ c :: rest) : x ∈ l :=
  mem_trimStr (he ▸ hx)

theorem classify_header_good {l n : Str} (hnl : '\n' ∉ l)
    (h : classifyLine l = .sectionHeader n) : GoodName n := by
  unfold classifyLine at h
  rcases ht : trimStr l with _ | ⟨c, rest⟩
  · rw [ht] at h
    simp at h
  · rw [ht] at h
    by_cases hc1 : c = '#'
    · simp [hc1] at h
    · by_cases hc2 : c = '['
      · rcases htu : takeUntil ']' rest with _ | ⟨nm⟩
        · simp [hc1, hc2, htu] at h
        · simp [hc1, hc2, htu] at h
          obtain ⟨hbr, rest2, hre⟩ := takeUntil_eq_some htu
          rw [← h]
          refine ⟨trimmed_trimStr nm, ?_, ?_⟩
          · intro hm
            exact hbr (mem_trimStr hm)
          · intro hm
            have hin : '\n' ∈ rest := by
              rw [hre]
              exact List.mem_append_left _ (mem_trimStr hm)
            exact hnl (mem_of_mem_trimStr_line ht (by simp [hin]))
      · rcases hs : splitAtFirst '=' (c :: rest) with _ | ⟨⟨a, b⟩⟩ <;>
          simp [hc1, hc2, hs] at h

theorem classify_property_good {l k : Str} {v : Str} (hnl : '\n' ∉ l)
    (h : classifyLine l = .property k (some v)) (hk0 : k ≠ []) :
    GoodKey k ∧ Trimmed v ∧ '\n' ∉ v := by
  unfold classifyLine at h
  rcases ht : trimStr l with _ | ⟨c, rest⟩
  · rw [ht] at h
    simp at h
  · rw [ht] at h
    by_cases hc1 : c = '#'
    · simp [hc1] at h
    · by_cases hc2 : c = '['
      · rcases htu : takeUntil ']' rest with _ | ⟨nm⟩ <;> simp [hc1, hc2, htu] at h
      · rcases hs : splitAtFirst '=' (c :: rest) with _ | ⟨⟨a, b⟩⟩
        · simp [hc1, hc2, hs] at h
        · simp [hc1, hc2, hs] at h
          obtain ⟨h1, h2⟩ := h
          subst h1
          subst h2
          obtain ⟨hna, habs⟩ := splitAtFirst_eq_some hs
          have hmem_a : ∀ x, x ∈ a → x ∈ l := by
            intro x hx
            refine mem_of_mem_trimStr_line ht ?_
            rw [habs]
            exact List.mem_append_left _ hx
          have hmem_b : ∀ x, x ∈ b → x ∈ l := by
            intro x hx
            refine mem_of_mem_trimStr_line ht ?_
            rw [habs]
            exact List.mem_append_right _ (by simp [hx])
          obtain ⟨ca, ka, hae⟩ : ∃ ca ka, a = ca :: ka := by
            rcases hx : a with _ | ⟨ca, ka⟩
            · rw [hx] at hk0
              exact absurd rfl hk0
            · exact ⟨ca, ka, rfl⟩
          have hca : ca = c := by
            rw [hae] at habs
            injection habs with he1 he2
            exact he1.symm
          have hcws : isWs c = false := by
            refine head?_trimStr_not_ws (s := l) ?_
            rw [ht]
            rfl
          have hhead : (trimStr a).head? = some c := by
            rw [hae, hca]
            exact head?_trimStr_cons ka hcws
          refine ⟨⟨hk0, trimmed_trimStr a, ?_, ?_, ?_, ?_⟩,
            trimmed_trimStr b, ?_⟩
          · intro hm
            exact hna (mem_trimStr hm)
          · intro hm
            exact hnl (hmem_a _ (mem_trimStr hm))
          · rw [hhead]
            intro he
            injection he with he
            exact hc1 he
          · rw [hhead]
            intro he
            injection he with he
            exact hc2 he
          · intro hm
            exact hnl (hmem_b _ (mem_trimStr hm))

theorem goodFile_commit {st : ParseState} (hst : GoodState st) :
    GoodFile (commitSection st.file st.current) := by
  rcases hcur : st.current with _ | ⟨s⟩
  · exact hst.1
  · constructor
    · rw [show (commitSection st.file (some s)).properties = st.file.properties from rfl]
      exact hst.1.1
    · rw [show (commitSection st.file (some s)).sections =
        st.file.sections ++ [s] from rfl]
      intro x hx
      rcases List.mem_append.mp hx with hx | hx
      · exact hst.1.2 x hx
      · rw [List.mem_singleton.mp hx]
        exact hst.2 s hcur

theorem goodState_step {st : ParseState} {l : Str} (hst : GoodState st) (hnl : '\n' ∉ l)
    (hsl : supportedEqLine l = true) : GoodState (parseStep st l) := by
  cases hcl : classifyLine l with
  | sectionHeader n =>
    rw [parseStep_of_header hcl]
    refine ⟨goodFile_commit hst, ?_⟩
    intro s' hs'
    injection hs' with hs'
    rw [← hs']
    exact ⟨classify_header_good hnl hcl, by simp⟩
  | property k v =>
    have hkv : k ≠ [] ∧ v.isSome = true := by
      unfold supportedEqLine at hsl
      rw [hcl] at hsl
      simpa using hsl
    obtain ⟨raw, hraw⟩ := Option.isSome_iff_exists.mp hkv.2
    subst hraw
    obtain ⟨hgk, htrv, hnlv⟩ := classify_property_good hnl hcl hkv.1
    have hgood : GoodProp (mkProperty k (some raw)) :=
      ⟨hgk, raw, htrv, hnlv, rfl⟩
    cases hcur : st.current with
    | some s =>
      have hstep : parseStep st l =
          { st with current := some { s with properties := s.properties ++ [mkProperty k (some raw)] } } := by
        rw [parseStep_of_property hcl, hcur]
      rw [hstep]
      refine ⟨hst.1, ?_⟩
      intro s' hs'
      injection hs' with hs'
      rw [← hs']
      obtain ⟨hn, hp⟩ := hst.2 s hcur
      refine ⟨hn, ?_⟩
      intro p hp2
      rcases List.mem_append.mp hp2 with hp2 | hp2
      · exact hp p hp2
      · rw [List.mem_singleton.mp hp2]
        exact hgood
    | none =>
      have hstep : parseStep st l =
          { st with file :=
            { st.file with properties := st.file.properties ++ [mkProperty k (some raw)] } } := by
        rw [parseStep_of_property hcl, hcur]
      rw [hstep]
      refine ⟨⟨?_, hst.1.2⟩, hst.2⟩
      intro p hp2
      rcases List.mem_append.mp hp2 with hp2 | hp2
      · exact hst.1.1 p hp2
      · rw [List.mem_singleton.mp hp2]
        exact hgood
  | blank =>
    rw [parseStep_of_skip (by unfold lineProp; rw [hcl]) (by unfold headerName; rw [hcl])]
    exact hst
  | comment text =>
    rw [parseStep_of_skip (by unfold lineProp; rw [hcl]) (by unfold headerName; rw [hcl])]
    exact hst
  | error line =>
    rw [parseStep_of_skip (by unfold lineProp; rw [hcl]) (by unfold headerName; rw [hcl])]
    exact hst

theorem parse_good {t : Str} (h : ∀ l ∈ splitOnChar '\n' t, supportedEqLine l = true) :
    GoodFile (ConfigFile.parseText t) := by
  have hfold : ∀ (ls : List Str) (st : ParseState), GoodState st →
      (∀ l ∈ ls, '\n' ∉ l) → (∀ l ∈ ls, supportedEqLine l = true) →
      GoodState (ls.foldl parseStep st) := by
    intro ls
    induction ls with
    | nil => intro st hst _ _; exact hst
    | cons l ls ih =>
      intro st hst hnl hsl
      rw [List.foldl_cons]
      exact ih _ (goodState_step hst (hnl l (by simp)) (hsl l (by simp)))
        (fun x hx => hnl x (by simp [hx])) (fun x hx => hsl x (by simp [hx]))
  have hstate := hfold (splitOnChar '\n' t)
    { file := { properties := [], sections := [] }, current := none }
    ⟨⟨by simp, by simp⟩, by intro s hs; cases hs⟩
    (fun l hl => not_mem_of_mem_splitOnChar hl) h
  unfold ConfigFile.parseText ConfigFile.parseLines finishParse
  exact goodFile_commit hstate

/-! ## Claim theorems for parse/format round trips and concrete lines -/

/-- C1 counterexample: on the bare-key line foo (a supported line shape: a key
alone yields a value-less property), one parse/format/parse pass is not
idempotent: the first parse yields value None, the formatter prints the line
with an equals sign, and reparsing that yields Some of one empty token. -/
theorem C1_counterexample :
    ConfigFile.parse (ConfigFile.format (ConfigFile.parseText "foo".toList) []) ≠
      ConfigFile.parse "foo".toList := by
  intro he
  have h2 : ConfigFile.parseText (ConfigFile.format (ConfigFile.parseText "foo".toList) []) =
      ConfigFile.parseText "foo".toList := Except.ok.inj he
  exact absurd h2 (by decide)

/-- C1 amended: parse(format(parse(text))) is structurally equal to
parse(text) for every text whose lines use only the supported shapes and
whose property lines all carry an equals sign (no bare-key lines: a bare key
is formatted back as a key with an equals sign and an empty value, which
reparses differently). -/
theorem C1_format_parse_idempotent (t : Str)
    (h : ∀ l ∈ splitOnChar '\n' t, supportedEqLine l = true) :
    ConfigFile.parse (ConfigFile.format (ConfigFile.parseText t) []) =
      ConfigFile.parse t := by
  unfold ConfigFile.parse
  rw [reparse_format (parse_good h)]

/-- C1 witness: a concrete supported text with a global property, a section
and a multi-token property round-trips to the same parse. -/
theorem C1_format_parse_idempotent_witness :
    ConfigFile.parse
        (ConfigFile.format (ConfigFile.parseText "a = 1\n# note\n[s]\nk = v;w".toList) []) =
      ConfigFile.parse "a = 1\n# note\n[s]\nk = v;w".toList :=
  C1_format_parse_idempotent "a = 1\n# note\n[s]\nk = v;w".toList (by decide)

/-- C2: evaluation at the failing input.  Parsing the line consisting of the
key foo, an equals sign and nothing else yields a Property whose value is
Some of a single empty token, not None; formatting that Property still
reproduces the line followed by a newline. -/
theorem C2_empty_value_eval :
    ConfigFile.parseText "foo =".toList =
      { properties := [{ key := "foo".toList, value := some [[]] }], sections := [] }
    ∧ ConfigFile.format (ConfigFile.parseText "foo =".toList) [] = "foo = \n".toList := by
  constructor
  · decide
  · decide

/-- C8: the line assigning 0.4;0.6 to nozzle_diameter parses to a Property
with the two tokens 0.4 and 0.6, and formatting reproduces exactly the same
line followed by a newline (tokens rejoined with a semicolon). -/
theorem C8_multi_value :
    ConfigFile.parseText "nozzle_diameter = 0.4;0.6".toList =
      { properties := [{ key := "nozzle_diameter".toList
                         value := some ["0.4".toList, "0.6".toList] }]
        sections := [] }
    ∧ ConfigFile.add_property []
        { key := "nozzle_diameter".toList
          value := some ["0.4".toList, "0.6".toList] } =
      "nozzle_diameter = 0.4;0.6\n".toList
    ∧ ConfigFile.format (ConfigFile.parseText "nozzle_diameter = 0.4;0.6".toList) [] =
      "nozzle_diameter = 0.4;0.6\n".toList := by
  refine ⟨by decide, by decide, by decide⟩
